import Mathlib

/-!
Verification of the SmartCoffee shortest-path assignment and route-optimization
pipeline (`partefinalentrega.py`, with the simpler variant `parte2ejcafeteria.py`).

The shallow embedding models:
* locations as `String`, edge weights as `ℤ` (the scripts use Python floats on
  integral kilometre data; exact integers model that arithmetic),
* path costs and matrix entries as `WithTop ℤ`, with `⊤` playing the role of
  Python `math.inf` (unreachable), and rationals `ℚ` for the statistics,
* a `networkx.DiGraph` as a node list plus an edge list with last-write-wins
  weight lookup (a `dict`-of-`dict` adjacency: `add_edge` overwrites),
* the library calls `single_source_bellman_ford_path_length` and
  `floyd_warshall` by the reference algorithms they implement (Bellman-Ford
  edge relaxation rounds, Floyd-Warshall triple min-plus relaxation), and
  `shortest_path_length` by the same relaxation distances,
* the `traveling_salesman_problem` call as an abstract parameter, `none`
  standing for the exception caught by the fallback branch.
-/

/-- Path costs / matrix distances: `⊤` is Python `math.inf` (unreachable). -/
abbrev Coste := WithTop ℤ

/-- A `networkx.DiGraph`: node list (insertion order) and directed weighted
edge list.  Weight lookup is last-write-wins, matching the adjacency dict. -/
structure Grafo where
  nodes : List String
  edges : List (String × String × ℤ)

/-- Weight of the directed edge `u → v` in an edge list: the last entry with
that key wins, as for repeated `add_edge` calls on a `networkx` graph. -/
def pesoEn : List (String × String × ℤ) → String → String → Option ℤ
  | [], _, _ => none
  | e :: l, u, v =>
    match pesoEn l u v with
    | some w => some w
    | none => if e.1 = u ∧ e.2.1 = v then some e.2.2 else none

/-- Weight of the directed edge `u → v` of `G`, if present. -/
def Grafo.peso (G : Grafo) (u v : String) : Option ℤ := pesoEn G.edges u v

/-- Edge weight as a `Coste`: a missing edge costs `⊤`. -/
def Grafo.ew (G : Grafo) (u v : String) : Coste :=
  match G.peso u v with
  | some w => (w : Coste)
  | none => ⊤

/-- `G.add_node u` of `networkx`: appends the node if it is not present. -/
def Grafo.addNode (G : Grafo) (u : String) : Grafo :=
  if u ∈ G.nodes then G else ⟨G.nodes ++ [u], G.edges⟩

/-- `G.add_edge u v w` of `networkx`: inserts both endpoints as nodes and
stores the weight for the key `(u, v)`, overwriting any previous weight. -/
def Grafo.addEdge (G : Grafo) (u v : String) (w : ℤ) : Grafo :=
  let G' := (G.addNode u).addNode v
  ⟨G'.nodes, G'.edges.filter (fun e => !(e.1 == u && e.2.1 == v)) ++ [(u, v, w)]⟩

/-- `construir_grafo_base`: builds the base graph, inserting every route in
both directions with the same weight. -/
def construir_grafo_base (rutas : List (String × String × ℤ)) : Grafo :=
  rutas.foldl (fun G r => (G.addEdge r.1 r.2.1 r.2.2).addEdge r.2.1 r.1 r.2.2) ⟨[], []⟩

/-- Well-formedness enjoyed by every graph the scripts build: edge endpoints
are nodes, and edge keys are not duplicated (they form a dict). -/
def Grafo.bienFormado (G : Grafo) : Prop :=
  (∀ e ∈ G.edges, e.1 ∈ G.nodes ∧ e.2.1 ∈ G.nodes) ∧
    (G.edges.map (fun e => (e.1, e.2.1))).Nodup

/-- An order, as the dicts produced by `simular_pedidos`: the timestamp is an
instant on a rational time line. -/
structure Pedido where
  numero : Nat
  cliente : String
  producto : String
  instante : ℚ
deriving DecidableEq

/-- `filtrar_pedidos_periodo`: keeps the orders whose timestamp `t` satisfies
`start_dt <= t < end_dt`. -/
def filtrar_pedidos_periodo (pedidos : List Pedido) (s e : ℚ) : List Pedido :=
  pedidos.filter (fun p => decide (s ≤ p.instante ∧ p.instante < e))

/-- Code-point comparison of strings, Python `sorted` order on the names. -/
def charsLe : List Char → List Char → Bool
  | [], _ => true
  | _ :: _, [] => false
  | x :: xs, y :: ys => if x < y then true else if y < x then false else charsLe xs ys

/-- String order used by `sorted` on location names. -/
def cadLe (a b : String) : Bool := charsLe a.data b.data

/-- The sorted deduplicated list of customers of the filtered orders:
`sorted({p["cliente"] for p in pedidos_periodo})`. -/
def clientesActivosDe (pedidos : List Pedido) : List String :=
  List.insertionSort (fun a b => cadLe a b = true) (pedidos.map (fun p => p.cliente)).dedup

/-- `grafo_con_clientes_activos`: nodes are all depots (`cafeterias`) plus the
active customers; edges are the base edges joining two such nodes.  The Python
function closes over the module-level `cafeterias`, passed here explicitly. -/
def grafo_con_clientes_activos (cafeterias : List String) (Gbase : Grafo)
    (pedidosPeriodo : List Pedido) : Grafo × List String :=
  let activos := clientesActivosDe pedidosPeriodo
  let G0 : Grafo := activos.foldl Grafo.addNode (cafeterias.foldl Grafo.addNode ⟨[], []⟩)
  let G1 := Gbase.edges.foldl
    (fun G e => if e.1 ∈ G.nodes ∧ e.2.1 ∈ G.nodes then G.addEdge e.1 e.2.1 e.2.2 else G) G0
  (G1, activos)

/-- The depots of the scripts. -/
def cafeterias : List String := ["Cafetería Norte", "Cafetería Centro", "Cafetería Sur"]

/-- The base routes of the scripts (distances in km). -/
def rutas : List (String × String × ℤ) :=
  [("Cafetería Norte", "Cliente A", 4),
   ("Cafetería Norte", "Cliente B", 6),
   ("Cafetería Centro", "Cliente B", 3),
   ("Cafetería Centro", "Cliente C", 4),
   ("Cafetería Centro", "Cliente D", 5),
   ("Cafetería Sur", "Cliente D", 3),
   ("Cafetería Sur", "Cliente E", 4),
   ("Cafetería Sur", "Cliente F", 6),
   ("Cliente A", "Cliente B", 2),
   ("Cliente B", "Cliente C", 3),
   ("Cliente C", "Cliente D", 4),
   ("Cliente D", "Cliente E", 5),
   ("Cliente E", "Cliente F", 2)]

-- ## Basic lemmas about the graph constructors

theorem pesoEn_append (l₁ l₂ : List (String × String × ℤ)) (u v : String) :
    pesoEn (l₁ ++ l₂) u v =
      match pesoEn l₂ u v with
      | some w => some w
      | none => pesoEn l₁ u v := by
  induction l₁ with
  | nil => cases h : pesoEn l₂ u v <;> simp [pesoEn, h]
  | cons e l ih =>
    cases h : pesoEn l₂ u v with
    | some w =>
      rw [h] at ih
      simp only at ih
      simp only [List.cons_append, pesoEn, List.append_eq, ih]
    | none =>
      rw [h] at ih
      simp only at ih
      simp only [List.cons_append, pesoEn, List.append_eq, ih]

theorem pesoEn_filter_ne (l : List (String × String × ℤ)) (a b u v : String)
    (h : ¬(u = a ∧ v = b)) :
    pesoEn (l.filter (fun e => !(e.1 == a && e.2.1 == b))) u v = pesoEn l u v := by
  induction l with
  | nil => rfl
  | cons e l ih =>
    by_cases he : e.1 = a ∧ e.2.1 = b
    · have hstep : List.filter (fun e => !(e.1 == a && e.2.1 == b)) (e :: l)
          = List.filter (fun e => !(e.1 == a && e.2.1 == b)) l := by
        apply List.filter_cons_of_neg
        simp [he.1, he.2]
      rw [hstep, ih]
      have hne : ¬(e.1 = u ∧ e.2.1 = v) := by
        rintro ⟨h1, h2⟩
        exact h ⟨by rw [← h1, he.1], by rw [← h2, he.2]⟩
      cases hp : pesoEn l u v with
      | some w => simp [pesoEn, hp]
      | none => simp [pesoEn, hp, hne]
    · have hstep : List.filter (fun e => !(e.1 == a && e.2.1 == b)) (e :: l)
          = e :: List.filter (fun e => !(e.1 == a && e.2.1 == b)) l := by
        apply List.filter_cons_of_pos
        by_cases h1 : e.1 = a
        · have h2 : e.2.1 ≠ b := fun hb => he ⟨h1, hb⟩
          simp [h1, h2]
        · simp [h1]
      rw [hstep]
      simp only [pesoEn, ih]

theorem Grafo.edges_addNode (G : Grafo) (u : String) : (G.addNode u).edges = G.edges := by
  unfold Grafo.addNode
  by_cases h : u ∈ G.nodes <;> simp [h]

theorem Grafo.peso_addEdge (G : Grafo) (a b u v : String) (w : ℤ) :
    (G.addEdge a b w).peso u v = if u = a ∧ v = b then some w else G.peso u v := by
  show pesoEn (_ ++ [(a, b, w)]) u v = _
  rw [pesoEn_append, Grafo.edges_addNode, Grafo.edges_addNode]
  by_cases h : u = a ∧ v = b
  · have : pesoEn [(a, b, w)] u v = some w := by
      simp [pesoEn, h.1.symm, h.2.symm]
    rw [this]
    simp [h]
  · have h1 : pesoEn [(a, b, w)] u v = none := by
      have : ¬(a = u ∧ b = v) := fun hc => h ⟨hc.1.symm, hc.2.symm⟩
      simp [pesoEn, this]
    rw [h1]
    simp only [if_neg h]
    exact pesoEn_filter_ne G.edges a b u v h

theorem Grafo.mem_addNode (G : Grafo) (u x : String) :
    x ∈ (G.addNode u).nodes ↔ x ∈ G.nodes ∨ x = u := by
  unfold Grafo.addNode
  by_cases h : u ∈ G.nodes
  · simp only [if_pos h]
    constructor
    · exact Or.inl
    · rintro (hx | rfl)
      · exact hx
      · exact h
  · simp [if_neg h, List.mem_append]

theorem Grafo.mem_addEdge (G : Grafo) (a b x : String) (w : ℤ) :
    x ∈ (G.addEdge a b w).nodes ↔ x ∈ G.nodes ∨ x = a ∨ x = b := by
  show x ∈ ((G.addNode a).addNode b).nodes ↔ _
  rw [Grafo.mem_addNode, Grafo.mem_addNode]
  tauto

theorem Grafo.nodes_addEdge_of_mem (G : Grafo) (a b : String) (w : ℤ)
    (ha : a ∈ G.nodes) (hb : b ∈ G.nodes) : (G.addEdge a b w).nodes = G.nodes := by
  show ((G.addNode a).addNode b).nodes = G.nodes
  unfold Grafo.addNode
  simp only [if_pos ha]
  simp only [if_pos hb]

theorem Grafo.nodes_addNode_foldl (l : List String) (G : Grafo) (x : String) :
    x ∈ (l.foldl Grafo.addNode G).nodes ↔ x ∈ G.nodes ∨ x ∈ l := by
  induction l generalizing G with
  | nil => simp
  | cons a l ih =>
    simp only [List.foldl_cons, ih, Grafo.mem_addNode, List.mem_cons]
    tauto

theorem Grafo.peso_addEdge2 (G : Grafo) (x y u v : String) (w : ℤ) :
    ((G.addEdge x y w).addEdge y x w).peso u v =
      if u = y ∧ v = x then some w else if u = x ∧ v = y then some w else G.peso u v := by
  rw [Grafo.peso_addEdge, Grafo.peso_addEdge]

theorem buildFold_sim (rs : List (String × String × ℤ)) (G0 : Grafo)
    (h0 : ∀ u v, G0.peso u v = G0.peso v u) :
    ∀ u v, (rs.foldl (fun G r => (G.addEdge r.1 r.2.1 r.2.2).addEdge r.2.1 r.1 r.2.2) G0).peso u v
      = (rs.foldl (fun G r => (G.addEdge r.1 r.2.1 r.2.2).addEdge r.2.1 r.1 r.2.2) G0).peso v u := by
  induction rs generalizing G0 with
  | nil => exact h0
  | cons r rs ih =>
    refine ih _ (fun u v => ?_)
    rw [Grafo.peso_addEdge2, Grafo.peso_addEdge2]
    by_cases h1 : u = r.2.1 ∧ v = r.1 <;> by_cases h2 : u = r.1 ∧ v = r.2.1 <;>
      simp [h1, h2, and_comm, h0 u v]


theorem buildFold_mono (rs : List (String × String × ℤ)) (G0 : Grafo) (u v : String) (w : ℤ)
    (h : G0.peso u v = some w) :
    ∃ w2, (rs.foldl (fun G r => (G.addEdge r.1 r.2.1 r.2.2).addEdge r.2.1 r.1 r.2.2) G0).peso u v
      = some w2 := by
  induction rs generalizing G0 w with
  | nil => exact ⟨w, h⟩
  | cons r rs ih =>
    simp only [List.foldl_cons]
    by_cases h1 : u = r.2.1 ∧ v = r.1
    · exact ih _ r.2.2 (by rw [Grafo.peso_addEdge2, if_pos h1])
    · by_cases h2 : u = r.1 ∧ v = r.2.1
      · exact ih _ r.2.2 (by rw [Grafo.peso_addEdge2, if_neg h1, if_pos h2])
      · exact ih _ w (by rw [Grafo.peso_addEdge2, if_neg h1, if_neg h2, h])

theorem buildFold_present (rs : List (String × String × ℤ)) (G0 : Grafo) (r : String × String × ℤ)
    (hr : r ∈ rs) :
    ∃ w, (rs.foldl (fun G r => (G.addEdge r.1 r.2.1 r.2.2).addEdge r.2.1 r.1 r.2.2) G0).peso
      r.1 r.2.1 = some w := by
  induction rs generalizing G0 with
  | nil => cases hr
  | cons s rs ih =>
    simp only [List.foldl_cons]
    rcases List.mem_cons.mp hr with rfl | hmem
    · have hs : ((G0.addEdge r.1 r.2.1 r.2.2).addEdge r.2.1 r.1 r.2.2).peso r.1 r.2.1
          = some r.2.2 := by
        rw [Grafo.peso_addEdge2]
        by_cases h1 : r.1 = r.2.1 ∧ r.2.1 = r.1
        · rw [if_pos h1]
        · rw [if_neg h1, if_pos ⟨rfl, rfl⟩]
      exact buildFold_mono rs _ r.1 r.2.1 r.2.2 hs
    · exact ih _ hmem

/-- C6: `construir_grafo_base` inserts, for every input route, the edge in
both directions with one common weight, and globally every stored edge
`(u, v, w)` is matched by the stored reverse edge `(v, u, w)`. -/
theorem C6_grafo_base_ida_y_vuelta (rs : List (String × String × ℤ)) :
    (∀ r ∈ rs, ∃ w, (construir_grafo_base rs).peso r.1 r.2.1 = some w ∧
        (construir_grafo_base rs).peso r.2.1 r.1 = some w) ∧
    (∀ u v w, (construir_grafo_base rs).peso u v = some w →
        (construir_grafo_base rs).peso v u = some w) := by
  have hsim : ∀ u v, (construir_grafo_base rs).peso u v = (construir_grafo_base rs).peso v u :=
    buildFold_sim rs ⟨[], []⟩ (fun _ _ => rfl)
  constructor
  · intro r hr
    obtain ⟨w, hw⟩ := buildFold_present rs ⟨[], []⟩ r hr
    exact ⟨w, hw, by rw [← hsim r.1 r.2.1]; exact hw⟩
  · intro u v w h
    rw [← hsim u v]
    exact h

set_option maxRecDepth 4000 in
/-- Witness for C6 at the concrete route list of the scripts. -/
theorem C6_witness :
    (construir_grafo_base rutas).peso "Cliente A" "Cafetería Norte" = some 4 :=
  (C6_grafo_base_ida_y_vuelta rutas).2 "Cafetería Norte" "Cliente A" 4 (by decide)

/-- C4: the time filter returns exactly the orders whose timestamp lies in
the half-open window, as a subsequence (original relative order), and it is
idempotent for the same window. -/
theorem C4_filtrar_periodo (pedidos : List Pedido) (s e : ℚ) :
    (∀ p, p ∈ filtrar_pedidos_periodo pedidos s e ↔
        p ∈ pedidos ∧ (s ≤ p.instante ∧ p.instante < e)) ∧
    (filtrar_pedidos_periodo pedidos s e).Sublist pedidos ∧
    filtrar_pedidos_periodo (filtrar_pedidos_periodo pedidos s e) s e
      = filtrar_pedidos_periodo pedidos s e := by
  refine ⟨fun p => ?_, List.filter_sublist pedidos, ?_⟩
  · rw [filtrar_pedidos_periodo, List.mem_filter, decide_eq_true_iff]
  · rw [filtrar_pedidos_periodo, filtrar_pedidos_periodo, List.filter_filter]
    congr 1
    funext p
    exact Bool.and_self _

theorem nodesFold_edges (l : List String) (G : Grafo) :
    (l.foldl Grafo.addNode G).edges = G.edges := by
  induction l generalizing G with
  | nil => rfl
  | cons a l ih => rw [List.foldl_cons, ih, Grafo.edges_addNode]

theorem edgeFold_nodes (es : List (String × String × ℤ)) (G0 : Grafo) :
    (es.foldl
      (fun G e => if e.1 ∈ G.nodes ∧ e.2.1 ∈ G.nodes then G.addEdge e.1 e.2.1 e.2.2 else G)
      G0).nodes = G0.nodes := by
  induction es generalizing G0 with
  | nil => rfl
  | cons e es ih =>
    rw [List.foldl_cons]
    by_cases h : e.1 ∈ G0.nodes ∧ e.2.1 ∈ G0.nodes
    · rw [if_pos h, ih, Grafo.nodes_addEdge_of_mem _ _ _ _ h.1 h.2]
    · rw [if_neg h, ih]

theorem edgeFold_peso (es : List (String × String × ℤ)) (G0 : Grafo) (u v : String) :
    (es.foldl
      (fun G e => if e.1 ∈ G.nodes ∧ e.2.1 ∈ G.nodes then G.addEdge e.1 e.2.1 e.2.2 else G)
      G0).peso u v =
      if u ∈ G0.nodes ∧ v ∈ G0.nodes then
        match pesoEn es u v with
        | some w => some w
        | none => G0.peso u v
      else G0.peso u v := by
  induction es generalizing G0 with
  | nil =>
    by_cases h : u ∈ G0.nodes ∧ v ∈ G0.nodes <;> simp [pesoEn, h]
  | cons e es ih =>
    rw [List.foldl_cons]
    by_cases hc : e.1 ∈ G0.nodes ∧ e.2.1 ∈ G0.nodes
    · rw [if_pos hc]
      rw [ih]
      have hn : (G0.addEdge e.1 e.2.1 e.2.2).nodes = G0.nodes :=
        Grafo.nodes_addEdge_of_mem _ _ _ _ hc.1 hc.2
      rw [hn, Grafo.peso_addEdge]
      by_cases hg : u ∈ G0.nodes ∧ v ∈ G0.nodes
      · rw [if_pos hg, if_pos hg]
        cases hes : pesoEn es u v with
        | some w => simp only [pesoEn, hes]
        | none =>
          simp only [pesoEn, hes]
          by_cases hk : e.1 = u ∧ e.2.1 = v
          · rw [if_pos ⟨hk.1.symm, hk.2.symm⟩, if_pos hk]
          · have hk2 : ¬(u = e.1 ∧ v = e.2.1) := fun hc2 => hk ⟨hc2.1.symm, hc2.2.symm⟩
            rw [if_neg hk2, if_neg hk]
      · rw [if_neg hg, if_neg hg]
        have hk2 : ¬(u = e.1 ∧ v = e.2.1) := by
          rintro ⟨rfl, rfl⟩
          exact hg hc
        rw [if_neg hk2]
    · rw [if_neg hc, ih]
      by_cases hg : u ∈ G0.nodes ∧ v ∈ G0.nodes
      · rw [if_pos hg, if_pos hg]
        cases hes : pesoEn es u v with
        | some w => simp only [pesoEn, hes]
        | none =>
          simp only [pesoEn, hes]
          have hk : ¬(e.1 = u ∧ e.2.1 = v) := by
            rintro ⟨rfl, rfl⟩
            exact hc hg
          rw [if_neg hk]
      · rw [if_neg hg, if_neg hg]

theorem mem_clientesActivosDe (pedidos : List Pedido) (x : String) :
    x ∈ clientesActivosDe pedidos ↔ ∃ p ∈ pedidos, p.cliente = x := by
  unfold clientesActivosDe
  rw [(List.perm_insertionSort _ _).mem_iff, List.mem_dedup, List.mem_map]

/-- C3: the active subgraph has node set {depots} ∪ {active customers} and
edge set exactly the base edges joining two of those nodes; the depots are
present even when the filtered order list is empty. -/
theorem C3_grafo_activo_exacto (cafes : List String) (Gbase : Grafo) (pedidos : List Pedido) :
    (∀ x, x ∈ (grafo_con_clientes_activos cafes Gbase pedidos).1.nodes ↔
        x ∈ cafes ∨ ∃ p ∈ pedidos, p.cliente = x) ∧
    (∀ u v, (grafo_con_clientes_activos cafes Gbase pedidos).1.peso u v =
        if u ∈ (grafo_con_clientes_activos cafes Gbase pedidos).1.nodes ∧
            v ∈ (grafo_con_clientes_activos cafes Gbase pedidos).1.nodes then
          Gbase.peso u v
        else none) := by
  unfold grafo_con_clientes_activos
  simp only
  set G0 : Grafo := (clientesActivosDe pedidos).foldl Grafo.addNode
    (cafes.foldl Grafo.addNode ⟨[], []⟩) with hG0
  have hnodes0 : ∀ x, x ∈ G0.nodes ↔ x ∈ cafes ∨ ∃ p ∈ pedidos, p.cliente = x := by
    intro x
    rw [hG0, Grafo.nodes_addNode_foldl, Grafo.nodes_addNode_foldl, mem_clientesActivosDe]
    have hb : ¬ x ∈ (⟨[], []⟩ : Grafo).nodes := fun hx => List.not_mem_nil x hx
    tauto
  have hedges0 : G0.edges = [] := by
    rw [hG0, nodesFold_edges, nodesFold_edges]
  have hpeso0 : ∀ u v, G0.peso u v = none := by
    intro u v
    show pesoEn G0.edges u v = none
    rw [hedges0]
    rfl
  have hnodesF := edgeFold_nodes Gbase.edges G0
  constructor
  · intro x
    rw [hnodesF]
    exact hnodes0 x
  · intro u v
    rw [edgeFold_peso, hnodesF, hpeso0 u v]
    by_cases hg : u ∈ G0.nodes ∧ v ∈ G0.nodes
    · rw [if_pos hg, if_pos hg]
      show (match pesoEn Gbase.edges u v with
            | some w => some w
            | none => none) = pesoEn Gbase.edges u v
      cases hb : pesoEn Gbase.edges u v <;> rfl
    · rw [if_neg hg, if_neg hg]

-- ## Walk costs: the semantics against which the shortest-path algorithms
-- called by the scripts (`bellman_ford`, `floyd_warshall`, `shortest_path_length`)
-- are characterised.

/-- Cost of traversing the consecutive nodes of `p` in `G`; a missing edge
costs `⊤`, a walk of at most one node costs `0`. -/
def costeCamino (G : Grafo) : List String → Coste
  | [] => 0
  | [_] => 0
  | u :: v :: p => G.ew u v + costeCamino G (v :: p)

/-- `p` is a nonempty node sequence from `u` to `v`. -/
def DesdeHasta (u v : String) (p : List String) : Prop :=
  p.head? = some u ∧ p.getLast? = some v

/-- No closed walk of the graph has negative total cost. -/
def Grafo.sinCicloNegativo (G : Grafo) : Prop :=
  ∀ x p, DesdeHasta x x p → 0 ≤ costeCamino G p

theorem costeCamino_append_cons (G : Grafo) (x : String) (xs ys : List String) :
    costeCamino G (xs ++ x :: ys) = costeCamino G (xs ++ [x]) + costeCamino G (x :: ys) := by
  induction xs with
  | nil =>
    show costeCamino G (x :: ys) = costeCamino G [x] + costeCamino G (x :: ys)
    rw [show costeCamino G [x] = 0 from rfl, zero_add]
  | cons a xs ih =>
    cases xs with
    | nil =>
      show G.ew a x + costeCamino G (x :: ys)
          = (G.ew a x + costeCamino G [x]) + costeCamino G (x :: ys)
      rw [show costeCamino G [x] = 0 from rfl, add_zero]
    | cons b xs2 =>
      show G.ew a b + costeCamino G (b :: xs2 ++ x :: ys)
          = (G.ew a b + costeCamino G (b :: xs2 ++ [x])) + costeCamino G (x :: ys)
      rw [ih, add_assoc]

theorem costeCamino_concat (G : Grafo) (p : List String) (u v : String)
    (hu : p.getLast? = some u) :
    costeCamino G (p ++ [v]) = costeCamino G p + G.ew u v := by
  obtain ⟨q, rfl⟩ := List.getLast?_eq_some_iff.mp hu
  rw [show q ++ [u] ++ [v] = q ++ u :: [v] by simp, costeCamino_append_cons]
  rw [show costeCamino G [u, v] = G.ew u v + 0 from rfl, add_zero]

theorem costeCamino_join (G : Grafo) (p q : List String) (k : String)
    (hp : p.getLast? = some k) (hq : q.head? = some k) :
    costeCamino G (p ++ q.tail) = costeCamino G p + costeCamino G q := by
  obtain ⟨p0, rfl⟩ := List.getLast?_eq_some_iff.mp hp
  cases q with
  | nil => cases hq
  | cons a t =>
    have ha : a = k := by
      rw [List.head?_cons] at hq
      exact (Option.some_injective _ hq)
    subst ha
    rw [List.tail_cons, show p0 ++ [a] ++ t = p0 ++ a :: t by simp,
      costeCamino_append_cons]

theorem pesoEn_mem (l : List (String × String × ℤ)) (u v : String) (w : ℤ)
    (h : pesoEn l u v = some w) : (u, v, w) ∈ l := by
  induction l with
  | nil => cases h
  | cons e l ih =>
    rw [pesoEn] at h
    cases hp : pesoEn l u v with
    | some w2 =>
      rw [hp] at h
      simp only [Option.some_inj] at h
      exact List.mem_cons_of_mem _ (ih (h ▸ hp))
    | none =>
      rw [hp] at h
      by_cases hk : e.1 = u ∧ e.2.1 = v
      · rw [if_pos hk] at h
        simp only [Option.some_inj] at h
        have he : e = (u, v, w) := by
          obtain ⟨h1, h2⟩ := hk
          obtain ⟨e1, e2, e3⟩ := e
          simp only at h1 h2 h
          rw [h1, h2, h]
        exact he ▸ List.mem_cons_self e l
      · rw [if_neg hk] at h
        cases h

theorem pesoEn_eq_of_mem (l : List (String × String × ℤ))
    (hnd : (l.map (fun e => (e.1, e.2.1))).Nodup) (e : String × String × ℤ) (he : e ∈ l) :
    pesoEn l e.1 e.2.1 = some e.2.2 := by
  induction l with
  | nil => cases he
  | cons f l ih =>
    rw [List.map_cons, List.nodup_cons] at hnd
    rcases List.mem_cons.mp he with rfl | hmem
    · have hnone : pesoEn l e.1 e.2.1 = none := by
        cases hp : pesoEn l e.1 e.2.1 with
        | none => rfl
        | some w =>
          exact absurd (List.mem_map.mpr ⟨(e.1, e.2.1, w), pesoEn_mem l _ _ w hp, rfl⟩)
            hnd.1
      rw [pesoEn, hnone]
      simp
    · rw [pesoEn, ih hnd.2 hmem]

theorem Grafo.ew_nonneg (G : Grafo) (h : ∀ e ∈ G.edges, 0 ≤ e.2.2) (u v : String) :
    0 ≤ G.ew u v := by
  unfold Grafo.ew
  cases hp : G.peso u v with
  | none => exact le_top
  | some w =>
    have h0 := h (u, v, w) (pesoEn_mem G.edges u v w hp)
    show (0 : Coste) ≤ (w : Coste)
    exact_mod_cast h0

theorem costeCamino_nonneg (G : Grafo) (h : ∀ e ∈ G.edges, 0 ≤ e.2.2) (p : List String) :
    0 ≤ costeCamino G p := by
  induction p with
  | nil => exact le_refl 0
  | cons a p ih =>
    cases p with
    | nil => exact le_refl 0
    | cons b q =>
      exact add_nonneg (G.ew_nonneg h a b) ih

/-- A graph with only non-negative edge weights has no negative cycle. -/
theorem sinCicloNegativo_of_nonneg (G : Grafo) (h : ∀ e ∈ G.edges, 0 ≤ e.2.2) :
    G.sinCicloNegativo :=
  fun _ p _ => costeCamino_nonneg G h p

theorem mem_nodes_of_coste_ne_top (G : Grafo) (hbf : G.bienFormado) :
    ∀ (p : List String), costeCamino G p ≠ ⊤ → 2 ≤ p.length → ∀ x ∈ p, x ∈ G.nodes := by
  intro p
  induction p with
  | nil => intro _ h2; cases h2
  | cons a p ih =>
    intro hc h2 x hx
    cases p with
    | nil => simp at h2
    | cons b q =>
      have hsplit : G.ew a b ≠ ⊤ ∧ costeCamino G (b :: q) ≠ ⊤ := by
        rw [show costeCamino G (a :: b :: q) = G.ew a b + costeCamino G (b :: q) from rfl]
          at hc
        constructor
        · intro ht
          exact hc (by rw [ht, WithTop.top_add])
        · intro ht
          exact hc (by rw [ht, WithTop.add_top])
      have hab : a ∈ G.nodes ∧ b ∈ G.nodes := by
        have hew := hsplit.1
        unfold Grafo.ew at hew
        cases hp : G.peso a b with
        | none => exact absurd (by rw [hp]) hew
        | some w =>
          have hm := pesoEn_mem G.edges a b w hp
          exact ⟨(hbf.1 _ hm).1, (hbf.1 _ hm).2⟩
      rcases List.mem_cons.mp hx with rfl | hx2
      · exact hab.1
      · cases q with
        | nil =>
          rcases List.mem_cons.mp hx2 with rfl | hx3
          · exact hab.2
          · cases hx3
        | cons c r =>
          exact ih hsplit.2 (by simp) x hx2

-- ## Bellman-Ford relaxation, modelling `nx.single_source_bellman_ford_path_length`
-- (and `nx.shortest_path_length`, which agrees with it on the scripts' graphs).

/-- Relax one directed edge. -/
def relajar (d : String → Coste) (e : String × String × ℤ) : String → Coste :=
  fun x => if x = e.2.1 then min (d x) (d e.1 + (e.2.2 : Coste)) else d x

/-- One Bellman-Ford round: relax every stored edge once. -/
def relajarTodo (G : Grafo) (d : String → Coste) : String → Coste :=
  G.edges.foldl relajar d

/-- Source distances before any relaxation. -/
def inicial (s : String) : String → Coste := fun x => if x = s then 0 else ⊤

/-- Bellman-Ford distances from `s`: `n - 1` relaxation rounds. -/
def Grafo.bf (G : Grafo) (s : String) : String → Coste :=
  (relajarTodo G)^[G.nodes.length - 1] (inicial s)

theorem relajar_le (d : String → Coste) (e : String × String × ℤ) (x : String) :
    relajar d e x ≤ d x := by
  unfold relajar
  by_cases hx : x = e.2.1
  · rw [if_pos hx]
    exact min_le_left _ _
  · rw [if_neg hx]

theorem relajar_mono (d d2 : String → Coste) (h : ∀ x, d x ≤ d2 x)
    (e : String × String × ℤ) (x : String) : relajar d e x ≤ relajar d2 e x := by
  unfold relajar
  by_cases hx : x = e.2.1
  · rw [if_pos hx, if_pos hx]
    exact min_le_min (h x) (add_le_add_right (h e.1) _)
  · rw [if_neg hx, if_neg hx]
    exact h x

theorem foldl_relajar_le (es : List (String × String × ℤ)) (d : String → Coste) (x : String) :
    es.foldl relajar d x ≤ d x := by
  induction es generalizing d with
  | nil => exact le_refl _
  | cons e es ih => exact (ih (relajar d e)).trans (relajar_le d e x)

theorem foldl_relajar_mono (es : List (String × String × ℤ)) (d d2 : String → Coste)
    (h : ∀ x, d x ≤ d2 x) (x : String) : es.foldl relajar d x ≤ es.foldl relajar d2 x := by
  induction es generalizing d d2 with
  | nil => exact h x
  | cons e es ih => exact ih _ _ (relajar_mono d d2 h e)

theorem foldl_relajar_le_edge (es : List (String × String × ℤ)) (d : String → Coste)
    (e : String × String × ℤ) (he : e ∈ es) :
    es.foldl relajar d e.2.1 ≤ d e.1 + (e.2.2 : Coste) := by
  induction es generalizing d with
  | nil => cases he
  | cons f es ih =>
    rcases List.mem_cons.mp he with rfl | hmem
    · refine (foldl_relajar_le es (relajar d e) e.2.1).trans ?_
      unfold relajar
      rw [if_pos rfl]
      exact min_le_right _ _
    · refine (ih (relajar d f) hmem).trans ?_
      exact add_le_add_right (relajar_le d f e.1) _

theorem iter_relajarTodo_le_coste (G : Grafo) (s : String) :
    ∀ (k : ℕ) (v : String) (p : List String), DesdeHasta s v p → p.length ≤ k + 1 →
      ((relajarTodo G)^[k] (inicial s)) v ≤ costeCamino G p := by
  intro k
  induction k with
  | zero =>
    intro v p hp hlen
    cases p with
    | nil => cases hp.1
    | cons a t =>
      cases t with
      | nil =>
        have ha : a = s := by
          have := hp.1
          rw [List.head?_cons] at this
          exact Option.some_injective _ this
        have hv : a = v := by
          have := hp.2
          rw [show ([a] : List String).getLast? = some a from rfl] at this
          exact Option.some_injective _ this
        subst ha
        subst hv
        show inicial a a ≤ costeCamino G [a]
        rw [show inicial a a = 0 by unfold inicial; rw [if_pos rfl]]
        exact le_refl _
      | cons b t2 => simp at hlen
  | succ k ih =>
    intro v p hp hlen
    by_cases hshort : p.length ≤ k + 1
    · have h1 : ((relajarTodo G)^[k + 1] (inicial s)) v ≤ ((relajarTodo G)^[k] (inicial s)) v := by
        rw [Function.iterate_succ_apply']
        exact foldl_relajar_le _ _ v
      exact h1.trans (ih v p hp hshort)
    · have hlen2 : p.length = k + 2 := by omega
      obtain ⟨q, rfl⟩ := List.getLast?_eq_some_iff.mp hp.2
      have hq : q ≠ [] := by
        intro h
        subst h
        simp at hlen2
      have hqlen : q.length = k + 1 := by
        rw [List.length_append] at hlen2
        simp at hlen2
        omega
      obtain ⟨u, hu⟩ : ∃ u, q.getLast? = some u := by
        cases hqq : q.getLast? with
        | none =>
          cases q with
          | nil => exact absurd rfl hq
          | cons a t =>
            exact absurd hqq (by simp)
        | some u => exact ⟨u, rfl⟩
      have hdq : DesdeHasta s u q := by
        refine ⟨?_, hu⟩
        have h1 := hp.1
        rw [List.head?_append] at h1
        cases q with
        | nil => exact absurd rfl hq
        | cons a t =>
          rw [List.head?_cons] at h1 ⊢
          exact h1
      rw [costeCamino_concat G q u v hu]
      cases hew : G.peso u v with
      | none =>
        rw [show G.ew u v = ⊤ by unfold Grafo.ew; rw [hew], WithTop.add_top]
        exact le_top
      | some w =>
        have hmem : (u, v, w) ∈ G.edges := pesoEn_mem _ _ _ _ hew
        have h1 : ((relajarTodo G)^[k + 1] (inicial s)) v
            ≤ ((relajarTodo G)^[k] (inicial s)) u + (w : Coste) := by
          rw [Function.iterate_succ_apply']
          exact foldl_relajar_le_edge G.edges _ (u, v, w) hmem
        have h2 : ((relajarTodo G)^[k] (inicial s)) u ≤ costeCamino G q :=
          ih u q hdq (le_of_eq hqlen)
        rw [show G.ew u v = (w : Coste) by unfold Grafo.ew; rw [hew]]
        exact h1.trans (add_le_add_right h2 _)

theorem getLast?_some_of_ne_nil (l : List String) (h : l ≠ []) : ∃ a, l.getLast? = some a := by
  cases hq : l.getLast? with
  | some a => exact ⟨a, rfl⟩
  | none =>
    cases l with
    | nil => exact absurd rfl h
    | cons b t => exact absurd hq (by simp)

theorem iter_relajarTodo_le (G : Grafo) (k : ℕ) (d : String → Coste) (x : String) :
    ((relajarTodo G)^[k] d) x ≤ d x := by
  induction k generalizing d with
  | zero => exact le_refl _
  | succ k ih =>
    rw [Function.iterate_succ_apply]
    exact (ih (relajarTodo G d)).trans (foldl_relajar_le _ _ x)

theorem foldl_relajar_exists (G : Grafo)
    (hnd : (G.edges.map (fun e => (e.1, e.2.1))).Nodup)
    (es : List (String × String × ℤ)) (hes : ∀ e ∈ es, e ∈ G.edges) (s : String)
    (d : String → Coste)
    (hd : ∀ x, ∃ p, DesdeHasta s x p ∧ costeCamino G p ≤ d x) :
    ∀ x, ∃ p, DesdeHasta s x p ∧ costeCamino G p ≤ es.foldl relajar d x := by
  induction es generalizing d with
  | nil => exact hd
  | cons e es ih =>
    refine ih (fun f hf => hes f (List.mem_cons_of_mem _ hf)) (relajar d e) (fun x => ?_)
    unfold relajar
    by_cases hx : x = e.2.1
    · rw [if_pos hx]
      subst hx
      rcases le_total (d e.2.1) (d e.1 + (e.2.2 : Coste)) with hle | hle
      · rw [min_eq_left hle]
        exact hd e.2.1
      · rw [min_eq_right hle]
        obtain ⟨p, hp, hc⟩ := hd e.1
        have hew : G.ew e.1 e.2.1 = (e.2.2 : Coste) := by
          unfold Grafo.ew
          rw [show G.peso e.1 e.2.1 = some e.2.2 from
            pesoEn_eq_of_mem G.edges hnd e (hes e (List.mem_cons_self e es))]
        refine ⟨p ++ [e.2.1], ⟨?_, List.getLast?_concat _⟩, ?_⟩
        · rw [List.head?_append, hp.1]
          rfl
        · rw [costeCamino_concat G p e.1 e.2.1 hp.2, hew]
          exact add_le_add_right hc _
    · rw [if_neg hx]
      exact hd x

theorem inicial_exists (G : Grafo) (s : String) :
    ∀ x, ∃ p, DesdeHasta s x p ∧ costeCamino G p ≤ inicial s x := by
  intro x
  by_cases hx : x = s
  · subst hx
    refine ⟨[x], ⟨rfl, rfl⟩, ?_⟩
    rw [show inicial x x = 0 by unfold inicial; rw [if_pos rfl]]
    exact le_refl _
  · refine ⟨[s, x], ⟨rfl, rfl⟩, ?_⟩
    rw [show inicial s x = ⊤ by unfold inicial; rw [if_neg hx]]
    exact le_top

theorem bf_exists (G : Grafo) (hnd : (G.edges.map (fun e => (e.1, e.2.1))).Nodup)
    (s : String) :
    ∀ x, ∃ p, DesdeHasta s x p ∧ costeCamino G p ≤ G.bf s x := by
  unfold Grafo.bf
  generalize G.nodes.length - 1 = k
  induction k with
  | zero => exact inicial_exists G s
  | succ k ih =>
    intro x
    rw [Function.iterate_succ_apply']
    exact foldl_relajar_exists G hnd G.edges (fun _ h => h) s _ ih x

theorem exists_dup_decomp (l : List String) (h : ¬ l.Nodup) :
    ∃ xs x ys zs, l = xs ++ x :: (ys ++ x :: zs) := by
  induction l with
  | nil => exact absurd List.nodup_nil h
  | cons a t ih =>
    by_cases ha : a ∈ t
    · obtain ⟨s, r, rfl⟩ := List.append_of_mem ha
      exact ⟨[], a, s, r, rfl⟩
    · have hndt : ¬ t.Nodup := fun hnd => h (List.nodup_cons.mpr ⟨ha, hnd⟩)
      obtain ⟨xs, x, ys, zs, rfl⟩ := ih hndt
      exact ⟨a :: xs, x, ys, zs, rfl⟩

theorem splice_cost_le (G : Grafo) (hneg : G.sinCicloNegativo)
    (xs ys zs : List String) (x : String) :
    costeCamino G (xs ++ x :: zs) ≤ costeCamino G (xs ++ x :: (ys ++ x :: zs)) := by
  rw [costeCamino_append_cons G x xs (ys ++ x :: zs), costeCamino_append_cons G x xs zs]
  apply add_le_add_left
  have hsplit : costeCamino G (x :: (ys ++ x :: zs))
      = costeCamino G ((x :: ys) ++ [x]) + costeCamino G (x :: zs) := by
    rw [show x :: (ys ++ x :: zs) = (x :: ys) ++ x :: zs from rfl,
      costeCamino_append_cons G x (x :: ys) zs]
  rw [hsplit]
  have hcyc : 0 ≤ costeCamino G ((x :: ys) ++ [x]) := by
    refine hneg x _ ⟨?_, List.getLast?_concat _⟩
    rw [List.head?_append, List.head?_cons]
    rfl
  calc costeCamino G (x :: zs) = 0 + costeCamino G (x :: zs) := (zero_add _).symm
  _ ≤ costeCamino G ((x :: ys) ++ [x]) + costeCamino G (x :: zs) := add_le_add_right hcyc _

theorem splice_desde (u v : String) (xs ys zs : List String) (x : String)
    (h : DesdeHasta u v (xs ++ x :: (ys ++ x :: zs))) :
    DesdeHasta u v (xs ++ x :: zs) := by
  obtain ⟨h1, h2⟩ := h
  constructor
  · rw [List.head?_append] at h1 ⊢
    rw [List.head?_cons] at h1 ⊢
    exact h1
  · rw [show xs ++ x :: (ys ++ x :: zs) = (xs ++ x :: ys) ++ x :: zs by simp] at h2
    rw [List.getLast?_append] at h2
    rw [List.getLast?_append]
    obtain ⟨a, ha⟩ := getLast?_some_of_ne_nil (x :: zs) (by simp)
    rw [ha] at h2 ⊢
    exact h2

theorem splice_subset (xs ys zs : List String) (x : String) :
    (xs ++ x :: zs) ⊆ (xs ++ x :: (ys ++ x :: zs)) := by
  intro a ha
  simp only [List.mem_append, List.mem_cons] at ha ⊢
  tauto

theorem exists_camino_nodup (G : Grafo) (hneg : G.sinCicloNegativo) :
    ∀ (n : ℕ) (p : List String) (u v : String), p.length ≤ n → DesdeHasta u v p →
      ∃ q, DesdeHasta u v q ∧ q.Nodup ∧ costeCamino G q ≤ costeCamino G p ∧ q ⊆ p := by
  intro n
  induction n with
  | zero =>
    intro p u v hlen hp
    cases p with
    | nil => cases hp.1
    | cons a t => simp at hlen
  | succ n ih =>
    intro p u v hlen hp
    by_cases hnd : p.Nodup
    · exact ⟨p, hp, hnd, le_refl _, fun a ha => ha⟩
    · obtain ⟨xs, x, ys, zs, rfl⟩ := exists_dup_decomp _ hnd
      have hlen2 : (xs ++ x :: zs).length ≤ n := by
        simp only [List.length_append, List.length_cons] at hlen ⊢
        omega
      obtain ⟨q, hq1, hq2, hq3, hq4⟩ :=
        ih (xs ++ x :: zs) u v hlen2 (splice_desde u v xs ys zs x hp)
      exact ⟨q, hq1, hq2, hq3.trans (splice_cost_le G hneg xs ys zs x),
        hq4.trans (splice_subset xs ys zs x)⟩

theorem bf_le_coste (G : Grafo) (hbf : G.bienFormado) (hneg : G.sinCicloNegativo)
    (s v : String) (p : List String) (hp : DesdeHasta s v p) :
    G.bf s v ≤ costeCamino G p := by
  obtain ⟨q, hq, hqnd, hqc, hqsub⟩ :=
    exists_camino_nodup G hneg p.length p s v (le_refl _) hp
  by_cases hct : costeCamino G q = ⊤
  · have hpt : costeCamino G p = ⊤ := top_le_iff.mp (hct ▸ hqc)
    rw [hpt]
    exact le_top
  · refine le_trans ?_ hqc
    cases q with
    | nil => cases hq.1
    | cons a t =>
      cases t with
      | nil =>
        have ha : a = s := by
          have h1 := hq.1
          rw [List.head?_cons] at h1
          exact Option.some_injective _ h1
        have hv : a = v := by
          have h2 := hq.2
          rw [show ([a] : List String).getLast? = some a from rfl] at h2
          exact Option.some_injective _ h2
        subst ha
        subst hv
        show G.bf a a ≤ costeCamino G [a]
        rw [show costeCamino G [a] = 0 from rfl]
        unfold Grafo.bf
        refine (iter_relajarTodo_le G _ (inicial a) a).trans ?_
        rw [show inicial a a = 0 by unfold inicial; rw [if_pos rfl]]
      | cons b t2 =>
        have hall : (a :: b :: t2) ⊆ G.nodes := fun x hx =>
          mem_nodes_of_coste_ne_top G hbf _ hct (by simp) x hx
        have hlenle : (a :: b :: t2).length ≤ G.nodes.length :=
          (List.Nodup.subperm hqnd hall).length_le
        have h2 : 2 ≤ (a :: b :: t2).length := by simp
        exact iter_relajarTodo_le_coste G s (G.nodes.length - 1) v (a :: b :: t2) hq (by omega)

-- ## Floyd-Warshall, modelling `nx.floyd_warshall`.

/-- Initial matrix entries before edges: `0` on the diagonal of the node set,
`inf` elsewhere (`dist[u][u] = 0` over a defaultdict of `inf`). -/
def diagInicial (G : Grafo) : String → String → Coste :=
  fun u v => if u = v ∧ u ∈ G.nodes then 0 else ⊤

/-- Load one stored edge into the matrix: `dist[u][v] = min(w, dist[u][v])`. -/
def ponerArista (D : String → String → Coste) (e : String × String × ℤ) :
    String → String → Coste :=
  fun u v => if u = e.1 ∧ v = e.2.1 then min ((e.2.2 : ℤ) : Coste) (D u v) else D u v

/-- The matrix after loading the diagonal and every stored edge. -/
def matrizInicial (G : Grafo) : String → String → Coste :=
  G.edges.foldl ponerArista (diagInicial G)

/-- One Floyd-Warshall pivot step through the intermediate node `k`. -/
def relajarPor (D : String → String → Coste) (k : String) : String → String → Coste :=
  fun u v => min (D u v) (D u k + D k v)

/-- The all-pairs matrix of `nx.floyd_warshall`: pivot through every node. -/
def Grafo.fw (G : Grafo) : String → String → Coste :=
  G.nodes.foldl relajarPor (matrizInicial G)

theorem ponerArista_le (D : String → String → Coste) (e : String × String × ℤ)
    (u v : String) : ponerArista D e u v ≤ D u v := by
  unfold ponerArista
  by_cases h : u = e.1 ∧ v = e.2.1
  · rw [if_pos h]
    exact min_le_right _ _
  · rw [if_neg h]

theorem foldl_ponerArista_le (es : List (String × String × ℤ))
    (D : String → String → Coste) (u v : String) :
    (es.foldl ponerArista D) u v ≤ D u v := by
  induction es generalizing D with
  | nil => exact le_refl _
  | cons e es ih => exact (ih (ponerArista D e)).trans (ponerArista_le D e u v)

theorem foldl_ponerArista_le_edge (es : List (String × String × ℤ))
    (D : String → String → Coste) (e : String × String × ℤ) (he : e ∈ es) :
    (es.foldl ponerArista D) e.1 e.2.1 ≤ (e.2.2 : Coste) := by
  induction es generalizing D with
  | nil => cases he
  | cons f es ih =>
    rcases List.mem_cons.mp he with rfl | hmem
    · refine (foldl_ponerArista_le es (ponerArista D e) e.1 e.2.1).trans ?_
      unfold ponerArista
      rw [if_pos ⟨rfl, rfl⟩]
      exact min_le_left _ _
    · exact ih (ponerArista D f) hmem

theorem matrizInicial_diag_le (G : Grafo) (u : String) (hu : u ∈ G.nodes) :
    matrizInicial G u u ≤ 0 := by
  refine (foldl_ponerArista_le G.edges (diagInicial G) u u).trans ?_
  unfold diagInicial
  rw [if_pos ⟨rfl, hu⟩]

theorem matrizInicial_le_ew (G : Grafo) (u v : String) :
    matrizInicial G u v ≤ G.ew u v := by
  unfold Grafo.ew
  cases hp : G.peso u v with
  | none => exact le_top
  | some w =>
    exact foldl_ponerArista_le_edge G.edges (diagInicial G) (u, v, w)
      (pesoEn_mem G.edges u v w hp)

/-- Every matrix entry dominates the cost of an actual walk. -/
def ExisteCamino (G : Grafo) (D : String → String → Coste) : Prop :=
  ∀ u v, ∃ p, DesdeHasta u v p ∧ costeCamino G p ≤ D u v

theorem diagInicial_exists (G : Grafo) : ExisteCamino G (diagInicial G) := by
  intro u v
  by_cases huv : u = v
  · subst huv
    exact ⟨[u], ⟨rfl, rfl⟩, by
      rw [show costeCamino G [u] = 0 from rfl]
      unfold diagInicial
      by_cases hu : u ∈ G.nodes
      · rw [if_pos ⟨rfl, hu⟩]
      · rw [if_neg (fun hc => hu hc.2)]
        exact le_top⟩
  · refine ⟨[u, v], ⟨rfl, rfl⟩, ?_⟩
    rw [show diagInicial G u v = ⊤ by
      unfold diagInicial
      rw [if_neg (fun hc => huv hc.1)]]
    exact le_top

theorem desde_join (u k v : String) (p q : List String)
    (hp : DesdeHasta u k p) (hq : DesdeHasta k v q) :
    DesdeHasta u v (p ++ q.tail) := by
  constructor
  · rw [List.head?_append, hp.1]
    rfl
  · cases q with
    | nil => cases hq.1
    | cons a t =>
      have ha : a = k := by
        have h1 := hq.1
        rw [List.head?_cons] at h1
        exact Option.some_injective _ h1
      cases t with
      | nil =>
        have hv : a = v := by
          have h2 := hq.2
          rw [show ([a] : List String).getLast? = some a from rfl] at h2
          exact Option.some_injective _ h2
        rw [List.tail_cons, List.append_nil, hp.2]
        exact congrArg some (ha.symm.trans hv)
      | cons b t2 =>
        rw [List.tail_cons, List.getLast?_append]
        have h2 := hq.2
        rw [List.getLast?_cons_cons] at h2
        rw [h2]
        rfl

theorem ponerArista_exists (G : Grafo)
    (hnd : (G.edges.map (fun e => (e.1, e.2.1))).Nodup)
    (D : String → String → Coste) (e : String × String × ℤ) (he : e ∈ G.edges)
    (hD : ExisteCamino G D) : ExisteCamino G (ponerArista D e) := by
  intro u v
  unfold ponerArista
  by_cases h : u = e.1 ∧ v = e.2.1
  · rw [if_pos h]
    obtain ⟨rfl, rfl⟩ := h
    rcases le_total ((e.2.2 : ℤ) : Coste) (D e.1 e.2.1) with hle | hle
    · rw [min_eq_left hle]
      refine ⟨[e.1, e.2.1], ⟨rfl, rfl⟩, ?_⟩
      rw [show costeCamino G [e.1, e.2.1] = G.ew e.1 e.2.1 + 0 from rfl, add_zero]
      rw [show G.ew e.1 e.2.1 = (e.2.2 : Coste) by
        unfold Grafo.ew
        rw [show G.peso e.1 e.2.1 = some e.2.2 from pesoEn_eq_of_mem G.edges hnd e he]]
    · rw [min_eq_right hle]
      exact hD e.1 e.2.1
  · rw [if_neg h]
    exact hD u v

theorem relajarPor_exists (G : Grafo) (D : String → String → Coste) (k : String)
    (hD : ExisteCamino G D) : ExisteCamino G (relajarPor D k) := by
  intro u v
  unfold relajarPor
  rcases le_total (D u v) (D u k + D k v) with hle | hle
  · rw [min_eq_left hle]
    exact hD u v
  · rw [min_eq_right hle]
    obtain ⟨p, hp, hcp⟩ := hD u k
    obtain ⟨q, hq, hcq⟩ := hD k v
    refine ⟨p ++ q.tail, desde_join u k v p q hp hq, ?_⟩
    rw [costeCamino_join G p q k hp.2 hq.1]
    exact add_le_add hcp hcq

theorem foldl_ponerArista_exists (G : Grafo)
    (hnd : (G.edges.map (fun e => (e.1, e.2.1))).Nodup) :
    ∀ (es : List (String × String × ℤ)), (∀ e ∈ es, e ∈ G.edges) →
      ∀ (D : String → String → Coste), ExisteCamino G D →
        ExisteCamino G (es.foldl ponerArista D) := by
  intro es
  induction es with
  | nil =>
    intro _ D hD
    exact hD
  | cons e es ih =>
    intro hes D hD
    exact ih (fun f hf => hes f (List.mem_cons_of_mem _ hf))
      (ponerArista D e) (ponerArista_exists G hnd D e (hes e (List.mem_cons_self e es)) hD)

theorem foldl_relajarPor_exists (G : Grafo) :
    ∀ (ks : List String) (D : String → String → Coste), ExisteCamino G D →
      ExisteCamino G (ks.foldl relajarPor D) := by
  intro ks
  induction ks with
  | nil =>
    intro D hD
    exact hD
  | cons k ks ih =>
    intro D hD
    exact ih (relajarPor D k) (relajarPor_exists G D k hD)

theorem fw_exists (G : Grafo) (hnd : (G.edges.map (fun e => (e.1, e.2.1))).Nodup) :
    ExisteCamino G G.fw :=
  foldl_relajarPor_exists G G.nodes (matrizInicial G)
    (foldl_ponerArista_exists G hnd G.edges (fun _ h => h) (diagInicial G)
      (diagInicial_exists G))

/-- `D u v` is below the cost of every duplicate-free walk from `u` to `v`
whose interior nodes all lie in `K`. -/
def CotaSup (G : Grafo) (K : List String) (D : String → String → Coste) : Prop :=
  ∀ u v p, u ∈ G.nodes → v ∈ G.nodes → DesdeHasta u v p → p.Nodup →
    (∀ x ∈ p.tail.dropLast, x ∈ K) → D u v ≤ costeCamino G p

theorem matrizInicial_cota (G : Grafo) : CotaSup G [] (matrizInicial G) := by
  intro u v p hu hv hp hnd hint
  cases p with
  | nil => cases hp.1
  | cons a t =>
    have ha : a = u := by
      have h1 := hp.1
      rw [List.head?_cons] at h1
      exact Option.some_injective _ h1
    subst ha
    cases t with
    | nil =>
      have hv2 : a = v := by
        have h2 := hp.2
        rw [show ([a] : List String).getLast? = some a from rfl] at h2
        exact Option.some_injective _ h2
      subst hv2
      show matrizInicial G a a ≤ costeCamino G [a]
      rw [show costeCamino G [a] = 0 from rfl]
      exact matrizInicial_diag_le G a hu
    | cons b t2 =>
      cases t2 with
      | nil =>
        have hv2 : b = v := by
          have h2 := hp.2
          rw [List.getLast?_cons_cons,
            show ([b] : List String).getLast? = some b from rfl] at h2
          exact Option.some_injective _ h2
        subst hv2
        show matrizInicial G a b ≤ costeCamino G [a, b]
        rw [show costeCamino G [a, b] = G.ew a b + 0 from rfl, add_zero]
        exact matrizInicial_le_ew G a b
      | cons c t3 =>
        exact absurd (hint b (List.mem_cons_self b _)) (List.not_mem_nil b)

theorem relajarPor_cota (G : Grafo) (K : List String) (k : String) (hk : k ∈ G.nodes)
    (D : String → String → Coste) (hD : CotaSup G K D) :
    CotaSup G (K ++ [k]) (relajarPor D k) := by
  intro u v p hu hv hp hnd hint
  by_cases hkin : k ∈ p.tail.dropLast
  · cases p with
    | nil => cases hp.1
    | cons a0 t =>
      have ha : a0 = u := by
        have h1 := hp.1
        rw [List.head?_cons] at h1
        exact Option.some_injective _ h1
      have hkt : k ∈ t := (List.dropLast_sublist t).subset hkin
      obtain ⟨t1, t2, rfl⟩ := List.append_of_mem hkt
      rw [List.nodup_cons] at hnd
      obtain ⟨ha0, hndt⟩ := hnd
      have hndt1 : t1.Nodup := hndt.of_append_left
      have hndk2 : (k :: t2).Nodup := hndt.of_append_right
      have hdisj : t1.Disjoint (k :: t2) := List.disjoint_of_nodup_append hndt
      have hkt1 : k ∉ t1 := fun hc => hdisj hc (List.mem_cons_self k t2)
      have hkt2 : k ∉ t2 := (List.nodup_cons.mp hndk2).1
      have ht2 : t2 ≠ [] := by
        intro h
        subst h
        rw [List.tail_cons, List.dropLast_concat] at hkin
        exact hkt1 hkin
      obtain ⟨c, t3, rfl⟩ : ∃ c t3, t2 = c :: t3 := by
        cases t2 with
        | nil => exact absurd rfl ht2
        | cons c t3 => exact ⟨c, t3, rfl⟩
      have hd1 : DesdeHasta u k ((a0 :: t1) ++ [k]) := by
        refine ⟨?_, List.getLast?_concat _⟩
        rw [show (a0 :: t1) ++ [k] = a0 :: (t1 ++ [k]) from rfl, List.head?_cons, ha]
      have hd2 : DesdeHasta k v (k :: c :: t3) := by
        refine ⟨List.head?_cons, ?_⟩
        have h2 := hp.2
        rw [show a0 :: (t1 ++ k :: c :: t3) = (a0 :: t1) ++ (k :: c :: t3) from rfl,
          List.getLast?_append] at h2
        obtain ⟨d, hdl⟩ := getLast?_some_of_ne_nil (k :: c :: t3) (by simp)
        rw [hdl] at h2 ⊢
        exact h2
      have hnd1 : ((a0 :: t1) ++ [k]).Nodup := by
        have hsub : List.Sublist ((a0 :: t1) ++ [k]) ((a0 :: t1) ++ (k :: c :: t3)) :=
          List.Sublist.append_left (List.cons_sublist_cons.mpr (List.nil_sublist _)) _
        refine hsub.nodup ?_
        rw [show (a0 :: t1) ++ (k :: c :: t3) = a0 :: (t1 ++ k :: c :: t3) from rfl,
          List.nodup_cons]
        exact ⟨ha0, hndt⟩
      have hint1 : ∀ x ∈ ((a0 :: t1) ++ [k]).tail.dropLast, x ∈ K := by
        intro x hx
        rw [show ((a0 :: t1) ++ [k]).tail = t1 ++ [k] from rfl, List.dropLast_concat] at hx
        have hxk : x ≠ k := fun hc => hkt1 (hc ▸ hx)
        have hxp : x ∈ (a0 :: (t1 ++ k :: c :: t3)).tail.dropLast := by
          rw [List.tail_cons, List.dropLast_append_cons]
          exact List.mem_append_left _ hx
        rcases List.mem_append.mp (hint x hxp) with h | h
        · exact h
        · rw [List.mem_singleton] at h
          exact absurd h hxk
      have hint2 : ∀ x ∈ (k :: c :: t3).tail.dropLast, x ∈ K := by
        intro x hx
        rw [List.tail_cons] at hx
        have hxt2 : x ∈ c :: t3 := (List.dropLast_sublist _).subset hx
        have hxk : x ≠ k := fun hc => hkt2 (hc ▸ hxt2)
        have hxp : x ∈ (a0 :: (t1 ++ k :: c :: t3)).tail.dropLast := by
          rw [List.tail_cons, List.dropLast_append_cons]
          refine List.mem_append_right _ ?_
          rw [show (k :: c :: t3).dropLast = k :: (c :: t3).dropLast from rfl]
          exact List.mem_cons_of_mem _ hx
        rcases List.mem_append.mp (hint x hxp) with h | h
        · exact h
        · rw [List.mem_singleton] at h
          exact absurd h hxk
      have hcost : costeCamino G (a0 :: (t1 ++ k :: c :: t3))
          = costeCamino G ((a0 :: t1) ++ [k]) + costeCamino G (k :: c :: t3) := by
        rw [show a0 :: (t1 ++ k :: c :: t3) = (a0 :: t1) ++ k :: (c :: t3) from rfl]
        exact costeCamino_append_cons G k (a0 :: t1) (c :: t3)
      show min (D u v) (D u k + D k v) ≤ _
      refine (min_le_right _ _).trans ?_
      rw [hcost]
      exact add_le_add (hD u k _ hu hk hd1 hnd1 hint1) (hD k v _ hk hv hd2 hndk2 hint2)
  · have hint2 : ∀ x ∈ p.tail.dropLast, x ∈ K := by
      intro x hx
      rcases List.mem_append.mp (hint x hx) with h | h
      · exact h
      · rw [List.mem_singleton] at h
        exact absurd (h ▸ hx) hkin
    show min (D u v) (D u k + D k v) ≤ _
    exact (min_le_left _ _).trans (hD u v p hu hv hp hnd hint2)

theorem foldl_relajarPor_cota (G : Grafo) :
    ∀ (ks : List String), (∀ x ∈ ks, x ∈ G.nodes) → ∀ (K : List String)
      (D : String → String → Coste), CotaSup G K D →
      CotaSup G (K ++ ks) (ks.foldl relajarPor D) := by
  intro ks
  induction ks with
  | nil =>
    intro _ K D hD
    rw [List.append_nil]
    exact hD
  | cons k ks ih =>
    intro hks K D hD
    have h1 := relajarPor_cota G K k (hks k (List.mem_cons_self k ks)) D hD
    have h2 := ih (fun x hx => hks x (List.mem_cons_of_mem _ hx)) (K ++ [k]) _ h1
    rw [List.append_assoc] at h2
    exact h2

theorem fw_le_coste (G : Grafo) (hbf : G.bienFormado) (hneg : G.sinCicloNegativo)
    (u v : String) (hu : u ∈ G.nodes) (hv : v ∈ G.nodes) (p : List String)
    (hp : DesdeHasta u v p) : G.fw u v ≤ costeCamino G p := by
  obtain ⟨q, hq, hqnd, hqc, hqsub⟩ :=
    exists_camino_nodup G hneg p.length p u v (le_refl _) hp
  by_cases hct : costeCamino G q = ⊤
  · have h2 : (⊤ : Coste) ≤ costeCamino G p := hct ▸ hqc
    rw [top_le_iff.mp h2]
    exact le_top
  · refine le_trans ?_ hqc
    refine foldl_relajarPor_cota G G.nodes (fun _ hx => hx) [] (matrizInicial G)
      (matrizInicial_cota G) u v q hu hv hq hqnd ?_
    intro x hx
    rw [List.nil_append]
    have hxq : x ∈ q := (List.tail_sublist q).subset ((List.dropLast_sublist _).subset hx)
    cases q with
    | nil => cases hq.1
    | cons a t =>
      cases t with
      | nil => exact absurd hx (List.not_mem_nil x)
      | cons b t2 => exact mem_nodes_of_coste_ne_top G hbf _ hct (by simp) x hxq

theorem fw_eq_bf (G : Grafo) (hbf : G.bienFormado) (hneg : G.sinCicloNegativo)
    (u v : String) (hu : u ∈ G.nodes) (hv : v ∈ G.nodes) :
    G.fw u v = G.bf u v := by
  apply le_antisymm
  · obtain ⟨p, hp, hc⟩ := bf_exists G hbf.2 u v
    exact (fw_le_coste G hbf hneg u v hu hv p hp).trans hc
  · obtain ⟨p, hp, hc⟩ := fw_exists G hbf.2 u v
    exact (bf_le_coste G hbf hneg u v p hp).trans hc

-- ## Well-formedness of every graph the scripts build

theorem Grafo.bienFormado_addNode (G : Grafo) (u : String) (h : G.bienFormado) :
    (G.addNode u).bienFormado := by
  obtain ⟨h1, h2⟩ := h
  constructor
  · intro e he
    rw [Grafo.edges_addNode] at he
    obtain ⟨he1, he2⟩ := h1 e he
    rw [Grafo.mem_addNode, Grafo.mem_addNode]
    exact ⟨Or.inl he1, Or.inl he2⟩
  · rw [Grafo.edges_addNode]
    exact h2

theorem Grafo.edges_addEdge (G : Grafo) (a b : String) (w : ℤ) :
    (G.addEdge a b w).edges
      = G.edges.filter (fun e => !(e.1 == a && e.2.1 == b)) ++ [(a, b, w)] := by
  show ((G.addNode a).addNode b).edges.filter _ ++ _ = _
  rw [Grafo.edges_addNode, Grafo.edges_addNode]

theorem Grafo.bienFormado_addEdge (G : Grafo) (a b : String) (w : ℤ) (h : G.bienFormado) :
    (G.addEdge a b w).bienFormado := by
  obtain ⟨h1, h2⟩ := h
  constructor
  · intro e he
    rw [Grafo.edges_addEdge] at he
    rcases List.mem_append.mp he with hf | hs
    · obtain ⟨he1, he2⟩ := h1 e (List.mem_of_mem_filter hf)
      rw [Grafo.mem_addEdge, Grafo.mem_addEdge]
      exact ⟨Or.inl he1, Or.inl he2⟩
    · rw [List.mem_singleton] at hs
      subst hs
      rw [Grafo.mem_addEdge, Grafo.mem_addEdge]
      exact ⟨Or.inr (Or.inl rfl), Or.inr (Or.inr rfl)⟩
  · rw [Grafo.edges_addEdge, List.map_append]
    rw [List.nodup_append]
    refine ⟨List.Nodup.sublist ((List.filter_sublist _).map _) h2, by simp, ?_⟩
    intro x hx1 hx2
    rw [show List.map (fun e => (e.1, e.2.1)) [(a, b, w)] = [(a, b)] from rfl,
      List.mem_singleton] at hx2
    subst hx2
    obtain ⟨e, hef, hkey⟩ := List.mem_map.mp hx1
    have hpred := List.of_mem_filter hef
    have hk1 : e.1 = a := congrArg Prod.fst hkey
    have hk2 : e.2.1 = b := congrArg Prod.snd hkey
    rw [hk1, hk2] at hpred
    simp at hpred

theorem bienFormado_nodesFold (l : List String) (G : Grafo) (h : G.bienFormado) :
    (l.foldl Grafo.addNode G).bienFormado := by
  induction l generalizing G with
  | nil => exact h
  | cons a l ih => exact ih _ (Grafo.bienFormado_addNode G a h)

theorem construir_grafo_base_bienFormado (rs : List (String × String × ℤ)) :
    (construir_grafo_base rs).bienFormado := by
  unfold construir_grafo_base
  have hbase : (⟨[], []⟩ : Grafo).bienFormado :=
    ⟨fun e he => absurd he (List.not_mem_nil e), List.nodup_nil⟩
  revert hbase
  generalize (⟨[], []⟩ : Grafo) = G0
  intro h0
  induction rs generalizing G0 with
  | nil => exact h0
  | cons r rs ih =>
    exact ih _ (Grafo.bienFormado_addEdge _ _ _ _ (Grafo.bienFormado_addEdge _ _ _ _ h0))

theorem grafo_activo_bienFormado (cafes : List String) (Gbase : Grafo)
    (pedidos : List Pedido) :
    (grafo_con_clientes_activos cafes Gbase pedidos).1.bienFormado := by
  unfold grafo_con_clientes_activos
  simp only
  have h0 : ((clientesActivosDe pedidos).foldl Grafo.addNode
      (cafes.foldl Grafo.addNode ⟨[], []⟩)).bienFormado :=
    bienFormado_nodesFold _ _ (bienFormado_nodesFold _ _
      ⟨fun e he => absurd he (List.not_mem_nil e), List.nodup_nil⟩)
  revert h0
  generalize ((clientesActivosDe pedidos).foldl Grafo.addNode
    (cafes.foldl Grafo.addNode ⟨[], []⟩)) = G0
  intro h0
  induction Gbase.edges generalizing G0 with
  | nil => exact h0
  | cons e es ih =>
    rw [List.foldl_cons]
    by_cases hc : e.1 ∈ G0.nodes ∧ e.2.1 ∈ G0.nodes
    · rw [if_pos hc]
      exact ih _ (Grafo.bienFormado_addEdge _ _ _ _ h0)
    · rw [if_neg hc]
      exact ih _ h0

-- ## The code-level distance functions of `partefinalentrega.py`

/-- The dict-of-dict matrix of `matriz_floyd_warshall`: keys (`nodos`) are
the nodes of the active graph, entries the Floyd-Warshall distances. -/
structure MatrizD where
  nodos : List String
  dist : String → String → Coste

/-- `matriz_floyd_warshall`: `dict(nx.floyd_warshall(G_activo))`. -/
def matriz_floyd_warshall (G : Grafo) : MatrizD := ⟨G.nodes, G.fw⟩

/-- The distance part of `bellman_ford_por_cafeteria`: for every depot that is
a node of the active graph, the Bellman-Ford distance to each active customer
(`math.inf`, here `⊤`, when unreachable).  The stored `ruta` component and the
negative-cycle warning list play no part in any claim and are omitted; the
Dijkstra fallback branch fires only when Bellman-Ford raises on a negative
cycle, outside the no-negative-cycle hypothesis of the claims. -/
def bellman_ford_por_cafeteria (G : Grafo) (cafes clientes : List String) :
    List (String × List (String × Coste)) :=
  (cafes.filter (fun c => decide (c ∈ G.nodes))).map
    (fun cafe => (cafe, clientes.map (fun cl => (cl, G.bf cafe cl))))

/-- C2: on an active subgraph with no negative cycle, every Floyd-Warshall
matrix entry for a (depot, customer) pair equals the per-depot Bellman-Ford
distance recorded by `bellman_ford_por_cafeteria`, and both are `⊤`
(Python `math.inf`) when the customer is unreachable from the depot. -/
theorem C2_matriz_fw_coincide_bellman_ford (cafes clientes : List String)
    (Gbase : Grafo) (pedidos : List Pedido) (cafe cliente : String)
    (hneg : (grafo_con_clientes_activos cafes Gbase pedidos).1.sinCicloNegativo)
    (hcafe : cafe ∈ (grafo_con_clientes_activos cafes Gbase pedidos).1.nodes)
    (hcli : cliente ∈ (grafo_con_clientes_activos cafes Gbase pedidos).1.nodes)
    (hcc : cafe ∈ cafes) (hclc : cliente ∈ clientes) :
    (matriz_floyd_warshall (grafo_con_clientes_activos cafes Gbase pedidos).1).dist
        cafe cliente
      = (grafo_con_clientes_activos cafes Gbase pedidos).1.bf cafe cliente ∧
    (∃ fila,
      (cafe, fila) ∈ bellman_ford_por_cafeteria
        (grafo_con_clientes_activos cafes Gbase pedidos).1 cafes clientes ∧
      (cliente,
        (matriz_floyd_warshall (grafo_con_clientes_activos cafes Gbase pedidos).1).dist
          cafe cliente) ∈ fila) ∧
    ((¬ ∃ p, DesdeHasta cafe cliente p ∧
        costeCamino (grafo_con_clientes_activos cafes Gbase pedidos).1 p ≠ ⊤) →
      (matriz_floyd_warshall (grafo_con_clientes_activos cafes Gbase pedidos).1).dist
        cafe cliente = ⊤) := by
  have hbf := grafo_activo_bienFormado cafes Gbase pedidos
  have heq : (grafo_con_clientes_activos cafes Gbase pedidos).1.fw cafe cliente
      = (grafo_con_clientes_activos cafes Gbase pedidos).1.bf cafe cliente :=
    fw_eq_bf _ hbf hneg cafe cliente hcafe hcli
  refine ⟨heq, ?_, ?_⟩
  · refine ⟨clientes.map (fun cl =>
      (cl, (grafo_con_clientes_activos cafes Gbase pedidos).1.bf cafe cl)), ?_, ?_⟩
    · exact List.mem_map.mpr ⟨cafe,
        List.mem_filter.mpr ⟨hcc, decide_eq_true hcafe⟩, rfl⟩
    · refine List.mem_map.mpr ⟨cliente, hclc, ?_⟩
      rw [show (matriz_floyd_warshall (grafo_con_clientes_activos cafes Gbase pedidos).1).dist
          cafe cliente
        = (grafo_con_clientes_activos cafes Gbase pedidos).1.fw cafe cliente from rfl, heq]
  · intro hno
    obtain ⟨p, hp, hc⟩ := bf_exists _ hbf.2 cafe cliente
    have hpt : costeCamino (grafo_con_clientes_activos cafes Gbase pedidos).1 p = ⊤ := by
      by_contra hcon
      exact hno ⟨p, hp, hcon⟩
    have h2 : (⊤ : Coste) ≤ (grafo_con_clientes_activos cafes Gbase pedidos).1.bf
        cafe cliente := hpt ▸ hc
    show (grafo_con_clientes_activos cafes Gbase pedidos).1.fw cafe cliente = ⊤
    rw [heq]
    exact top_le_iff.mp h2

/-- Witness for C2 on a small concrete pipeline run. -/
theorem C2_witness :
    (matriz_floyd_warshall (grafo_con_clientes_activos ["c"]
        (construir_grafo_base [("c", "x", 2)]) [⟨1, "x", "p", 0⟩]).1).dist "c" "x"
      = (grafo_con_clientes_activos ["c"] (construir_grafo_base [("c", "x", 2)])
        [⟨1, "x", "p", 0⟩]).1.bf "c" "x" :=
  (C2_matriz_fw_coincide_bellman_ford ["c"] ["x"]
    (construir_grafo_base [("c", "x", 2)]) [⟨1, "x", "p", 0⟩] "c" "x"
    (sinCicloNegativo_of_nonneg _ (by decide)) (by decide) (by decide)
    (by decide) (by decide)).1

-- ## The assignment loop of `practica_smartcoffee_pedidos_avanzada`

/-- The distance `nx.shortest_path_length(G_activo, cafe, cliente, weight=...)`
used by the assignment loop, as the relaxation shortest distance; `⊤` models
the `NetworkXNoPath` exception, which the loop catches with `continue` (and a
`⊤` distance can never win the strict test `d < menor`). -/
def shortest_path_length (G : Grafo) (u v : String) : Coste := G.bf u v

/-- The best-depot fold of the assignment loop: start from
`(mejor_cafe, menor) = (None, inf)`, skip depots not in the active graph, and
update only on strictly smaller distance (so the first depot keeps ties). -/
def mejorCafe (G : Grafo) (cafes : List String) (cliente : String) :
    Option String × Coste :=
  cafes.foldl (fun acc cafe =>
    if cafe ∈ G.nodes then
      if shortest_path_length G cafe cliente < acc.2 then
        (some cafe, shortest_path_length G cafe cliente)
      else acc
    else acc) (none, ⊤)

/-- The entry stored for one customer: `if mejor_cafe:` Python truthiness
(`None` and the empty string are both falsy). -/
def asigEntrada (G : Grafo) (cafes : List String) (cliente : String) :
    Option (String × Coste) :=
  match mejorCafe G cafes cliente with
  | (some cafe, d) => if cafe = "" then none else some (cafe, d)
  | (none, _) => none

/-- The `asignaciones` dict: customer → (assigned depot, distance). -/
def asignaciones (G : Grafo) (cafes clientes : List String) :
    List (String × String × Coste) :=
  clientes.filterMap (fun cliente =>
    (asigEntrada G cafes cliente).map (fun r => (cliente, r)))

/-- Invariant of the best-depot fold after processing the prefix `proc`. -/
def BuenAcc (G : Grafo) (cliente : String) (proc : List String)
    (acc : Option String × Coste) : Prop :=
  (acc.1 = none ∧ acc.2 = ⊤ ∧
    ∀ c ∈ proc, c ∈ G.nodes → shortest_path_length G c cliente = ⊤) ∨
  (∃ c, acc.1 = some c ∧ acc.2 = shortest_path_length G c cliente ∧ c ∈ proc ∧
    c ∈ G.nodes ∧ shortest_path_length G c cliente ≠ ⊤ ∧
    (∀ c2 ∈ proc, c2 ∈ G.nodes →
      shortest_path_length G c cliente ≤ shortest_path_length G c2 cliente) ∧
    (∃ l1 l2, proc = l1 ++ c :: l2 ∧ ∀ c2 ∈ l1, c2 ∈ G.nodes →
      shortest_path_length G c cliente < shortest_path_length G c2 cliente))

theorem buenAcc_paso (G : Grafo) (cliente : String) (proc : List String)
    (acc : Option String × Coste) (hacc : BuenAcc G cliente proc acc) (cafe : String) :
    BuenAcc G cliente (proc ++ [cafe])
      (if cafe ∈ G.nodes then
        if shortest_path_length G cafe cliente < acc.2 then
          (some cafe, shortest_path_length G cafe cliente)
        else acc
      else acc) := by
  by_cases hn : cafe ∈ G.nodes
  · rw [if_pos hn]
    by_cases hlt : shortest_path_length G cafe cliente < acc.2
    · rw [if_pos hlt]
      refine Or.inr ⟨cafe, rfl, rfl, List.mem_append_right _ (List.mem_singleton.mpr rfl),
        hn, ?_, ?_, proc, [], rfl, ?_⟩
      · rcases hacc with ⟨_, h2, _⟩ | ⟨c, _, h2, _, _, hct, _, _⟩
        · rw [h2] at hlt
          exact LT.lt.ne_top hlt
        · rw [h2] at hlt
          exact LT.lt.ne_top (hlt.trans (lt_top_iff_ne_top.mpr hct))
      · intro c2 hc2 hc2n
        rcases List.mem_append.mp hc2 with hm | hm
        · rcases hacc with ⟨_, h2, htodo⟩ | ⟨c, _, h2, _, _, _, hmin, _⟩
          · rw [htodo c2 hm hc2n]
            exact le_top
          · rw [h2] at hlt
            exact (hlt.trans_le (hmin c2 hm hc2n)).le
        · rw [List.mem_singleton] at hm
          subst hm
          exact le_refl _
      · intro c2 hc2 hc2n
        rcases hacc with ⟨_, h2, htodo⟩ | ⟨c, _, h2, _, _, _, hmin, _⟩
        · rw [htodo c2 hc2 hc2n]
          rw [h2] at hlt
          exact hlt
        · rw [h2] at hlt
          exact hlt.trans_le (hmin c2 hc2 hc2n)
    · rw [if_neg hlt]
      rcases hacc with ⟨h1, h2, htodo⟩ | ⟨c, h1, h2, hmem, hcn, hct, hmin, l1, l2, hdec, hstr⟩
      · refine Or.inl ⟨h1, h2, ?_⟩
        intro c hc hcn
        rcases List.mem_append.mp hc with hm | hm
        · exact htodo c hm hcn
        · rw [List.mem_singleton] at hm
          subst hm
          rw [h2] at hlt
          by_contra hne
          exact hlt (lt_top_iff_ne_top.mpr hne)
      · refine Or.inr ⟨c, h1, h2, List.mem_append_left _ hmem, hcn, hct, ?_,
          l1, l2 ++ [cafe], by rw [hdec]; simp, hstr⟩
        intro c2 hc2 hc2n
        rcases List.mem_append.mp hc2 with hm | hm
        · exact hmin c2 hm hc2n
        · rw [List.mem_singleton] at hm
          subst hm
          rw [h2] at hlt
          exact not_lt.mp hlt
  · rw [if_neg hn]
    rcases hacc with ⟨h1, h2, htodo⟩ | ⟨c, h1, h2, hmem, hcn, hct, hmin, l1, l2, hdec, hstr⟩
    · refine Or.inl ⟨h1, h2, ?_⟩
      intro c hc hcn
      rcases List.mem_append.mp hc with hm | hm
      · exact htodo c hm hcn
      · rw [List.mem_singleton] at hm
        subst hm
        exact absurd hcn hn
    · refine Or.inr ⟨c, h1, h2, List.mem_append_left _ hmem, hcn, hct, ?_,
        l1, l2 ++ [cafe], by rw [hdec]; simp, hstr⟩
      intro c2 hc2 hc2n
      rcases List.mem_append.mp hc2 with hm | hm
      · exact hmin c2 hm hc2n
      · rw [List.mem_singleton] at hm
        subst hm
        exact absurd hc2n hn

theorem mejorCafe_buenAcc (G : Grafo) (cliente : String) (cafes : List String) :
    BuenAcc G cliente cafes (mejorCafe G cafes cliente) := by
  have hgen : ∀ (rest proc : List String) (acc : Option String × Coste),
      BuenAcc G cliente proc acc →
      BuenAcc G cliente (proc ++ rest) (rest.foldl (fun acc cafe =>
        if cafe ∈ G.nodes then
          if shortest_path_length G cafe cliente < acc.2 then
            (some cafe, shortest_path_length G cafe cliente)
          else acc
        else acc) acc) := by
    intro rest
    induction rest with
    | nil =>
      intro proc acc h
      rw [List.append_nil]
      exact h
    | cons cafe rest ih =>
      intro proc acc h
      have h2 := ih (proc ++ [cafe]) _ (buenAcc_paso G cliente proc acc h cafe)
      rw [List.append_assoc] at h2
      exact h2
  have h := hgen cafes [] (none, ⊤) (Or.inl ⟨rfl, rfl, fun c hc => absurd hc (List.not_mem_nil c)⟩)
  rw [List.nil_append] at h
  exact h

theorem asignaciones_cons (G : Grafo) (cafes : List String) (c : String)
    (rest : List String) :
    asignaciones G cafes (c :: rest)
      = match asigEntrada G cafes c with
        | some r => (c, r) :: asignaciones G cafes rest
        | none => asignaciones G cafes rest := by
  show List.filterMap _ (c :: rest) = _
  rw [List.filterMap_cons]
  cases he : asigEntrada G cafes c <;> rfl

theorem lookup_asignaciones_not_mem (G : Grafo) (cafes : List String) (cliente : String) :
    ∀ clientes : List String, cliente ∉ clientes →
      List.lookup cliente (asignaciones G cafes clientes) = none := by
  intro clientes
  induction clientes with
  | nil => intro _; rfl
  | cons c rest ih =>
    intro hnm
    have hc : cliente ≠ c := fun h => hnm (h ▸ List.mem_cons_self c rest)
    have hrest : cliente ∉ rest := fun h => hnm (List.mem_cons_of_mem _ h)
    rw [asignaciones_cons]
    cases he : asigEntrada G cafes c with
    | none => exact ih hrest
    | some r =>
      show List.lookup cliente ((c, r) :: asignaciones G cafes rest) = none
      rw [List.lookup_cons, show (cliente == c) = false from beq_eq_false_iff_ne.mpr hc]
      exact ih hrest

theorem lookup_asignaciones (G : Grafo) (cafes : List String) (cliente : String) :
    ∀ clientes : List String, clientes.Nodup → cliente ∈ clientes →
      List.lookup cliente (asignaciones G cafes clientes)
        = asigEntrada G cafes cliente := by
  intro clientes
  induction clientes with
  | nil =>
    intro _ h
    cases h
  | cons c rest ih =>
    intro hnd hmem
    rw [asignaciones_cons]
    rcases List.mem_cons.mp hmem with rfl | hmem2
    · have hnotin : cliente ∉ rest := (List.nodup_cons.mp hnd).1
      cases he : asigEntrada G cafes cliente with
      | none =>
        show List.lookup cliente (asignaciones G cafes rest) = none
        exact lookup_asignaciones_not_mem G cafes cliente rest hnotin
      | some r =>
        show List.lookup cliente ((cliente, r) :: asignaciones G cafes rest) = some r
        rw [List.lookup_cons, show (cliente == cliente) = true from beq_self_eq_true _]
    · have hc : cliente ≠ c := by
        rintro rfl
        exact (List.nodup_cons.mp hnd).1 hmem2
      cases he : asigEntrada G cafes c with
      | none => exact ih (List.nodup_cons.mp hnd).2 hmem2
      | some r =>
        show List.lookup cliente ((c, r) :: asignaciones G cafes rest) = _
        rw [List.lookup_cons, show (cliente == c) = false from beq_eq_false_iff_ne.mpr hc]
        exact ih (List.nodup_cons.mp hnd).2 hmem2

/-- C1: in the active subgraph, a customer reachable from at least one depot
is assigned the depot of minimal shortest-path distance, recording that
distance, with ties kept by the first depot in the depot list (a later equal
distance never replaces it); a customer unreachable from every depot is
simply absent from `asignaciones`.  The hypothesis `"" ∉ cafes` reflects the
`if mejor_cafe:` truthiness test (depot names are non-empty strings). -/
theorem C1_asignacion_cafe_mas_cercano (cafes : List String) (Gbase : Grafo)
    (pedidos : List Pedido) (cliente : String) (hvacia : "" ∉ cafes)
    (hcl : cliente ∈ (grafo_con_clientes_activos cafes Gbase pedidos).2) :
    ((∃ cafe ∈ cafes, cafe ∈ (grafo_con_clientes_activos cafes Gbase pedidos).1.nodes ∧
        shortest_path_length (grafo_con_clientes_activos cafes Gbase pedidos).1
          cafe cliente ≠ ⊤) →
      ∃ cafe,
        List.lookup cliente (asignaciones (grafo_con_clientes_activos cafes Gbase pedidos).1
            cafes (grafo_con_clientes_activos cafes Gbase pedidos).2)
          = some (cafe, shortest_path_length
              (grafo_con_clientes_activos cafes Gbase pedidos).1 cafe cliente) ∧
        cafe ∈ cafes ∧
        cafe ∈ (grafo_con_clientes_activos cafes Gbase pedidos).1.nodes ∧
        shortest_path_length (grafo_con_clientes_activos cafes Gbase pedidos).1
          cafe cliente ≠ ⊤ ∧
        (∀ c2 ∈ cafes, c2 ∈ (grafo_con_clientes_activos cafes Gbase pedidos).1.nodes →
          shortest_path_length (grafo_con_clientes_activos cafes Gbase pedidos).1
              cafe cliente
            ≤ shortest_path_length (grafo_con_clientes_activos cafes Gbase pedidos).1
              c2 cliente) ∧
        (∃ l1 l2, cafes = l1 ++ cafe :: l2 ∧
          ∀ c2 ∈ l1, c2 ∈ (grafo_con_clientes_activos cafes Gbase pedidos).1.nodes →
            shortest_path_length (grafo_con_clientes_activos cafes Gbase pedidos).1
                cafe cliente
              < shortest_path_length (grafo_con_clientes_activos cafes Gbase pedidos).1
                c2 cliente)) ∧
    ((¬ ∃ cafe ∈ cafes,
        cafe ∈ (grafo_con_clientes_activos cafes Gbase pedidos).1.nodes ∧
        shortest_path_length (grafo_con_clientes_activos cafes Gbase pedidos).1
          cafe cliente ≠ ⊤) →
      List.lookup cliente (asignaciones (grafo_con_clientes_activos cafes Gbase pedidos).1
          cafes (grafo_con_clientes_activos cafes Gbase pedidos).2) = none) := by
  have hnodup : (grafo_con_clientes_activos cafes Gbase pedidos).2.Nodup := by
    show (clientesActivosDe pedidos).Nodup
    unfold clientesActivosDe
    exact ((List.perm_insertionSort _ _).nodup_iff).mpr (List.nodup_dedup _)
  have hlu := lookup_asignaciones (grafo_con_clientes_activos cafes Gbase pedidos).1
    cafes cliente _ hnodup hcl
  have hbuen := mejorCafe_buenAcc (grafo_con_clientes_activos cafes Gbase pedidos).1
    cliente cafes
  constructor
  · rintro ⟨cafe0, hc0, hn0, ht0⟩
    rcases hbuen with ⟨_, _, htodo⟩ | ⟨c, h1, h2, hmem, hcn, hct, hmin, l1, l2, hdec, hstr⟩
    · exact absurd (htodo cafe0 hc0 hn0) ht0
    · refine ⟨c, ?_, hmem, hcn, hct, hmin, l1, l2, hdec, hstr⟩
      rw [hlu]
      unfold asigEntrada
      have hpair : mejorCafe (grafo_con_clientes_activos cafes Gbase pedidos).1 cafes cliente
          = (some c, shortest_path_length (grafo_con_clientes_activos cafes Gbase pedidos).1
              c cliente) :=
        Prod.ext h1 h2
      rw [hpair]
      have hcne : ¬ c = "" := fun h => hvacia (h ▸ hmem)
      show (if c = "" then none
        else some (c, shortest_path_length
          (grafo_con_clientes_activos cafes Gbase pedidos).1 c cliente)) = _
      rw [if_neg hcne]
  · intro hno
    rcases hbuen with ⟨h1, h2, _⟩ | ⟨c, _, _, hmem, hcn, hct, _, _⟩
    · rw [hlu]
      unfold asigEntrada
      have hpair : mejorCafe (grafo_con_clientes_activos cafes Gbase pedidos).1 cafes cliente
          = (none, ⊤) := Prod.ext h1 h2
      rw [hpair]
    · exact absurd ⟨c, hmem, hcn, hct⟩ hno

set_option maxRecDepth 8000 in
/-- Witness for C1 on the scripts' own data with one active customer. -/
theorem C1_witness :
    ∃ cafe,
      List.lookup "Cliente B" (asignaciones
          (grafo_con_clientes_activos cafeterias (construir_grafo_base rutas)
            [⟨1, "Cliente B", "Café Latte", 0⟩]).1
          cafeterias
          (grafo_con_clientes_activos cafeterias (construir_grafo_base rutas)
            [⟨1, "Cliente B", "Café Latte", 0⟩]).2)
        = some (cafe, shortest_path_length
            (grafo_con_clientes_activos cafeterias (construir_grafo_base rutas)
              [⟨1, "Cliente B", "Café Latte", 0⟩]).1 cafe "Cliente B") ∧
      cafe ∈ cafeterias ∧
      cafe ∈ (grafo_con_clientes_activos cafeterias (construir_grafo_base rutas)
        [⟨1, "Cliente B", "Café Latte", 0⟩]).1.nodes ∧
      shortest_path_length (grafo_con_clientes_activos cafeterias (construir_grafo_base rutas)
        [⟨1, "Cliente B", "Café Latte", 0⟩]).1 cafe "Cliente B" ≠ ⊤ ∧
      (∀ c2 ∈ cafeterias,
        c2 ∈ (grafo_con_clientes_activos cafeterias (construir_grafo_base rutas)
          [⟨1, "Cliente B", "Café Latte", 0⟩]).1.nodes →
        shortest_path_length (grafo_con_clientes_activos cafeterias (construir_grafo_base rutas)
            [⟨1, "Cliente B", "Café Latte", 0⟩]).1 cafe "Cliente B"
          ≤ shortest_path_length (grafo_con_clientes_activos cafeterias
            (construir_grafo_base rutas) [⟨1, "Cliente B", "Café Latte", 0⟩]).1
            c2 "Cliente B") ∧
      (∃ l1 l2, cafeterias = l1 ++ cafe :: l2 ∧
        ∀ c2 ∈ l1,
          c2 ∈ (grafo_con_clientes_activos cafeterias (construir_grafo_base rutas)
            [⟨1, "Cliente B", "Café Latte", 0⟩]).1.nodes →
          shortest_path_length (grafo_con_clientes_activos cafeterias
              (construir_grafo_base rutas) [⟨1, "Cliente B", "Café Latte", 0⟩]).1
              cafe "Cliente B"
            < shortest_path_length (grafo_con_clientes_activos cafeterias
              (construir_grafo_base rutas) [⟨1, "Cliente B", "Café Latte", 0⟩]).1
              c2 "Cliente B") :=
  (C1_asignacion_cafe_mas_cercano cafeterias (construir_grafo_base rutas)
    [⟨1, "Cliente B", "Café Latte", 0⟩] "Cliente B" (by decide) (by decide)).1
    ⟨"Cafetería Centro", by decide, by decide, by decide⟩

-- ## The route loop of `practica_smartcoffee_pedidos_avanzada`

/-- `pedidos_cafe`: the filtered orders whose customer is assigned to `cafe`
(`asignaciones.get(p["cliente"], (None,))[0] == cafe`; an unassigned customer
compares `None == cafe`, which is false). -/
def pedidosCafe (asig : List (String × String × Coste)) (pedidosPeriodo : List Pedido)
    (cafe : String) : List Pedido :=
  pedidosPeriodo.filter (fun p =>
    match List.lookup p.cliente asig with
    | some r => r.1 == cafe
    | none => false)

/-- `clientes_destino = list({p["cliente"] for p in pedidos_cafe})`; Python
set order is unspecified, modelled as first-occurrence deduplication. -/
def destinosCafe (asig : List (String × String × Coste)) (pedidosPeriodo : List Pedido)
    (cafe : String) : List String :=
  ((pedidosCafe asig pedidosPeriodo cafe).map (fun p => p.cliente)).dedup

/-- `G.subgraph(ns).copy()` of networkx: nodes of `G` among `ns` and the
stored edges joining two of them. -/
def subgraphOf (G : Grafo) (ns : List String) : Grafo :=
  ⟨G.nodes.filter (fun x => decide (x ∈ ns)),
   G.edges.filter (fun e => decide (e.1 ∈ ns) && decide (e.2.1 ∈ ns))⟩

/-- One iteration of the route loop.  The black-box library call
`nx.approximation.traveling_salesman_problem(subgrafo, cycle=False, ...)` is
the abstract parameter `tsp`; `tsp _ _ = none` models the exception that the
`except` branch catches, falling back to the assigned customers sorted by
shortest distance from the depot within the sub-structure (the inner bare
`except` that turns a failed distance query into `inf` is the `⊤` of
`shortest_path_length`). -/
def rutaCafe (tsp : Grafo → String → Option (List String)) (G : Grafo)
    (asig : List (String × String × Coste)) (pedidosPeriodo : List Pedido)
    (cafe : String) : Option (List String) :=
  if pedidosCafe asig pedidosPeriodo cafe = [] then none
  else
    match tsp (subgraphOf G (cafe :: destinosCafe asig pedidosPeriodo cafe)) cafe with
    | some r => some r
    | none =>
      some (cafe :: List.insertionSort (fun a b =>
        shortest_path_length (subgraphOf G (cafe :: destinosCafe asig pedidosPeriodo cafe))
            cafe a
          ≤ shortest_path_length (subgraphOf G (cafe :: destinosCafe asig pedidosPeriodo cafe))
            cafe b)
        (destinosCafe asig pedidosPeriodo cafe))

/-- The `rutas_optimizadas` dict: one entry per depot, `none` for Python `None`. -/
def rutas_optimizadas (tsp : Grafo → String → Option (List String)) (G : Grafo)
    (cafes : List String) (asig : List (String × String × Coste))
    (pedidosPeriodo : List Pedido) : List (String × Option (List String)) :=
  cafes.map (fun cafe => (cafe, rutaCafe tsp G asig pedidosPeriodo cafe))

/-- C9: a depot with zero assigned orders gets `None` as its route — an entry
present in `rutas_optimizadas`, null rather than an empty sequence — and the
loop continues (no error). -/
theorem C9_cafe_sin_pedidos_ruta_nula (tsp : Grafo → String → Option (List String))
    (G : Grafo) (asig : List (String × String × Coste)) (pedidosPeriodo : List Pedido)
    (cafes : List String) (cafe : String) (hc : cafe ∈ cafes)
    (hpc : pedidosCafe asig pedidosPeriodo cafe = []) :
    rutaCafe tsp G asig pedidosPeriodo cafe = none ∧
    rutaCafe tsp G asig pedidosPeriodo cafe ≠ some [] ∧
    (cafe, (none : Option (List String)))
      ∈ rutas_optimizadas tsp G cafes asig pedidosPeriodo := by
  have h1 : rutaCafe tsp G asig pedidosPeriodo cafe = none := by
    unfold rutaCafe
    rw [if_pos hpc]
  refine ⟨h1, ?_, ?_⟩
  · rw [h1]
    intro h
    cases h
  · exact List.mem_map.mpr ⟨cafe, hc, by rw [h1]⟩

/-- Witness for C9. -/
theorem C9_witness :
    rutaCafe (fun _ _ => none) (construir_grafo_base [("c", "x", 2)]) [] [] "c" = none :=
  (C9_cafe_sin_pedidos_ruta_nula (fun _ _ => none) (construir_grafo_base [("c", "x", 2)])
    [] [] ["c"] "c" (by decide) (by decide)).1

/-- C8: when the TSP heuristic fails on the depot's sub-structure, the route
loop recovers locally (the entry is still produced, no propagated error) and
returns the depot followed by its assigned customers sorted by ascending
shortest-path distance from the depot within the sub-structure. -/
theorem C8_fallo_tsp_ordena_por_distancia (tsp : Grafo → String → Option (List String))
    (G : Grafo) (asig : List (String × String × Coste)) (pedidosPeriodo : List Pedido)
    (cafe : String) (hpc : pedidosCafe asig pedidosPeriodo cafe ≠ [])
    (htsp : tsp (subgraphOf G (cafe :: destinosCafe asig pedidosPeriodo cafe)) cafe
      = none) :
    ∃ orden,
      rutaCafe tsp G asig pedidosPeriodo cafe = some (cafe :: orden) ∧
      orden.Perm (destinosCafe asig pedidosPeriodo cafe) ∧
      orden.Pairwise (fun a b =>
        shortest_path_length (subgraphOf G (cafe :: destinosCafe asig pedidosPeriodo cafe))
            cafe a
          ≤ shortest_path_length
            (subgraphOf G (cafe :: destinosCafe asig pedidosPeriodo cafe)) cafe b) := by
  refine ⟨List.insertionSort (fun a b =>
      shortest_path_length (subgraphOf G (cafe :: destinosCafe asig pedidosPeriodo cafe))
          cafe a
        ≤ shortest_path_length (subgraphOf G (cafe :: destinosCafe asig pedidosPeriodo cafe))
          cafe b) (destinosCafe asig pedidosPeriodo cafe), ?_, ?_, ?_⟩
  · unfold rutaCafe
    rw [if_neg hpc, htsp]
  · exact List.perm_insertionSort _ _
  · haveI : IsTotal String (fun a b =>
        shortest_path_length (subgraphOf G (cafe :: destinosCafe asig pedidosPeriodo cafe))
            cafe a
          ≤ shortest_path_length
            (subgraphOf G (cafe :: destinosCafe asig pedidosPeriodo cafe)) cafe b) :=
      ⟨fun a b => le_total _ _⟩
    haveI : IsTrans String (fun a b =>
        shortest_path_length (subgraphOf G (cafe :: destinosCafe asig pedidosPeriodo cafe))
            cafe a
          ≤ shortest_path_length
            (subgraphOf G (cafe :: destinosCafe asig pedidosPeriodo cafe)) cafe b) :=
      ⟨fun a b c hab hbc => le_trans hab hbc⟩
    exact List.sorted_insertionSort _ _

/-- Witness for C8: a depot with one assigned order and an always-failing
heuristic. -/
theorem C8_witness :
    ∃ orden,
      rutaCafe (fun _ _ => none) (construir_grafo_base [("c", "x", 2)])
          [("x", "c", ((2 : ℤ) : Coste))] [⟨1, "x", "p", 0⟩] "c"
        = some ("c" :: orden) ∧
      orden.Perm (destinosCafe [("x", "c", ((2 : ℤ) : Coste))] [⟨1, "x", "p", 0⟩] "c") ∧
      orden.Pairwise (fun a b =>
        shortest_path_length (subgraphOf (construir_grafo_base [("c", "x", 2)])
            ("c" :: destinosCafe [("x", "c", ((2 : ℤ) : Coste))] [⟨1, "x", "p", 0⟩] "c"))
            "c" a
          ≤ shortest_path_length (subgraphOf (construir_grafo_base [("c", "x", 2)])
            ("c" :: destinosCafe [("x", "c", ((2 : ℤ) : Coste))] [⟨1, "x", "p", 0⟩] "c"))
            "c" b) :=
  C8_fallo_tsp_ordena_por_distancia (fun _ _ => none) (construir_grafo_base [("c", "x", 2)])
    [("x", "c", ((2 : ℤ) : Coste))] [⟨1, "x", "p", 0⟩] "c" (by decide) rfl

/-- C10: the per-depot grouping partitions exactly the filtered orders whose
customer appears in `asignaciones` — each order lands in precisely the depot
its customer is assigned to — while an order of an unassigned customer is in
no depot's pending list and its customer appears in no computed route (for
any heuristic whose routes stay inside the sub-structure it is given). -/
theorem C10_pedidos_particionados (asig : List (String × String × Coste))
    (pedidosPeriodo : List Pedido) (p : Pedido) (hp : p ∈ pedidosPeriodo) :
    (∀ cafe dist, List.lookup p.cliente asig = some (cafe, dist) →
      p ∈ pedidosCafe asig pedidosPeriodo cafe ∧
      ∀ cafe2, p ∈ pedidosCafe asig pedidosPeriodo cafe2 → cafe2 = cafe) ∧
    (List.lookup p.cliente asig = none →
      (∀ cafe, p ∉ pedidosCafe asig pedidosPeriodo cafe) ∧
      (∀ (tsp : Grafo → String → Option (List String)) (G : Grafo) (cafes : List String),
        (∀ H c r, tsp H c = some r → ∀ x ∈ r, x ∈ H.nodes) →
        p.cliente ∉ cafes →
        ∀ cafe ∈ cafes, ∀ r, rutaCafe tsp G asig pedidosPeriodo cafe = some r →
          p.cliente ∉ r)) := by
  constructor
  · intro cafe dist hlk
    constructor
    · refine List.mem_filter.mpr ⟨hp, ?_⟩
      rw [hlk]
      exact beq_self_eq_true cafe
    · intro cafe2 hmem
      have hpred := List.of_mem_filter hmem
      rw [hlk] at hpred
      exact (beq_iff_eq.mp hpred).symm
  · intro hlk
    have hnpred : ∀ cafe, p ∉ pedidosCafe asig pedidosPeriodo cafe := by
      intro cafe hmem
      have hpred := List.of_mem_filter hmem
      rw [hlk] at hpred
      cases hpred
    refine ⟨hnpred, ?_⟩
    intro tsp G cafes htsp hpc cafe hcafe r hr
    have hdest : p.cliente ∉ destinosCafe asig pedidosPeriodo cafe := by
      intro hd
      unfold destinosCafe at hd
      rw [List.mem_dedup] at hd
      obtain ⟨q, hq, hqc⟩ := List.mem_map.mp hd
      have hpred := List.of_mem_filter hq
      rw [hqc, hlk] at hpred
      cases hpred
    have hsub : p.cliente ∉ (cafe :: destinosCafe asig pedidosPeriodo cafe) := by
      intro hm
      rcases List.mem_cons.mp hm with he | hm2
      · exact hpc (he ▸ hcafe)
      · exact hdest hm2
    unfold rutaCafe at hr
    by_cases hvacia : pedidosCafe asig pedidosPeriodo cafe = []
    · rw [if_pos hvacia] at hr
      cases hr
    · rw [if_neg hvacia] at hr
      cases htspr : tsp (subgraphOf G (cafe :: destinosCafe asig pedidosPeriodo cafe))
          cafe with
      | some r2 =>
        rw [htspr] at hr
        simp only [Option.some_inj] at hr
        subst hr
        intro hmem
        have hnodes := htsp _ _ _ htspr p.cliente hmem
        have : p.cliente ∈ (cafe :: destinosCafe asig pedidosPeriodo cafe) := by
          have h2 := List.of_mem_filter hnodes
          rw [decide_eq_true_iff] at h2
          exact h2
        exact hsub this
      | none =>
        rw [htspr] at hr
        simp only [Option.some_inj] at hr
        subst hr
        intro hmem
        rcases List.mem_cons.mp hmem with he | hm2
        · exact hpc (he ▸ hcafe)
        · rw [List.mem_insertionSort] at hm2
          exact hdest hm2

/-- Witness for C10: one order whose customer is assigned, one run. -/
theorem C10_witness :
    (∀ cafe dist,
      List.lookup (Pedido.cliente ⟨1, "x", "p", 0⟩) [("x", "c", ((2 : ℤ) : Coste))]
        = some (cafe, dist) →
      (⟨1, "x", "p", 0⟩ : Pedido)
          ∈ pedidosCafe [("x", "c", ((2 : ℤ) : Coste))] [⟨1, "x", "p", 0⟩] cafe ∧
      ∀ cafe2, (⟨1, "x", "p", 0⟩ : Pedido)
          ∈ pedidosCafe [("x", "c", ((2 : ℤ) : Coste))] [⟨1, "x", "p", 0⟩] cafe2 →
        cafe2 = cafe) ∧
    (List.lookup (Pedido.cliente ⟨1, "x", "p", 0⟩) [("x", "c", ((2 : ℤ) : Coste))] = none →
      (∀ cafe, (⟨1, "x", "p", 0⟩ : Pedido)
          ∉ pedidosCafe [("x", "c", ((2 : ℤ) : Coste))] [⟨1, "x", "p", 0⟩] cafe) ∧
      (∀ (tsp : Grafo → String → Option (List String)) (G : Grafo) (cafes : List String),
        (∀ H c r, tsp H c = some r → ∀ x ∈ r, x ∈ H.nodes) →
        Pedido.cliente ⟨1, "x", "p", 0⟩ ∉ cafes →
        ∀ cafe ∈ cafes, ∀ r,
          rutaCafe tsp G [("x", "c", ((2 : ℤ) : Coste))] [⟨1, "x", "p", 0⟩] cafe = some r →
          Pedido.cliente ⟨1, "x", "p", 0⟩ ∉ r)) :=
  C10_pedidos_particionados [("x", "c", ((2 : ℤ) : Coste))] [⟨1, "x", "p", 0⟩]
    ⟨1, "x", "p", 0⟩ (by decide)

-- ## The z-score anomaly detector of `analisis_y_sugerencias`

/-- The ordered pairs `(nodos[i], nodos[j])` with `i < j` of the double loop. -/
def paresDe : List String → List (String × String)
  | [] => []
  | x :: xs => xs.map (fun y => (x, y)) ++ paresDe xs

/-- The `pares` list: node pairs with a finite matrix distance, keeping it. -/
def pares (D : MatrizD) : List (String × String × ℤ) :=
  (paresDe D.nodos).filterMap (fun uv =>
    match D.dist uv.1 uv.2 with
    | some d => some (uv.1, uv.2, d)
    | none => none)

/-- `dist_vals`: the distances of the finite pairs. -/
def valores (D : MatrizD) : List ℤ :=
  (pares D).map (fun s => s.2.2)

/-- `statistics.mean` over the distance sample, as an exact rational. -/
def media (vals : List ℤ) : ℚ :=
  (vals.map (fun d => (d : ℚ))).sum / vals.length

/-- The population variance; `statistics.pstdev` is its square root. -/
def pvarianza (vals : List ℤ) : ℚ :=
  (vals.map (fun d => ((d : ℚ) - media vals)^2)).sum / vals.length

/-- The `inusuales` list: with at least two finite pairs, those whose z-score
`z = (d - mean)/pstdev` satisfies `|z| > 1.5`, where `z = 0` when the standard
deviation is zero.  `|z| > 1.5` with `pstdev = √pvariance` is encoded in exact
rational arithmetic by the equivalent test `pvariance ≠ 0 ∧ (3/2)² · pvariance
< (d - mean)²`; the real-valued z-score reading is recovered in the C5
theorem via `zReal`. -/
def inusuales (D : MatrizD) : List (String × String × ℤ) :=
  if 2 ≤ (pares D).length then
    (pares D).filter (fun t =>
      decide (pvarianza (valores D) ≠ 0 ∧
        (9 : ℚ)/4 * pvarianza (valores D) < ((t.2.2 : ℚ) - media (valores D))^2))
  else []

/-- The z-score of the code over the reals: distance minus mean, divided by
the population standard deviation (with the `z = 0` convention on a zero
standard deviation arising from division by zero). -/
noncomputable def zReal (vals : List ℤ) (d : ℤ) : ℝ :=
  (((d : ℚ) - media vals : ℚ) : ℝ) / Real.sqrt ((pvarianza vals : ℚ) : ℝ)

theorem pvarianza_nonneg (vals : List ℤ) : 0 ≤ pvarianza vals := by
  unfold pvarianza
  apply div_nonneg
  · apply List.sum_nonneg
    intro x hx
    obtain ⟨d, _, rfl⟩ := List.mem_map.mp hx
    exact sq_nonneg _
  · exact Nat.cast_nonneg _

theorem cuadrado_iff_real (x v : ℚ) (hvpos : 0 < v) :
    ((9 : ℚ)/4 * v < x^2) ↔
      (3 : ℝ)/2 < |((x : ℚ) : ℝ)| / Real.sqrt ((v : ℚ) : ℝ) := by
  have hvRpos : (0 : ℝ) < ((v : ℚ) : ℝ) := by exact_mod_cast hvpos
  have hsq : 0 < Real.sqrt ((v : ℚ) : ℝ) := Real.sqrt_pos.mpr hvRpos
  constructor
  · intro hlt
    have hR : (((9 : ℚ)/4 * v : ℚ) : ℝ) < ((x^2 : ℚ) : ℝ) := Rat.cast_lt.mpr hlt
    push_cast at hR
    rw [lt_div_iff₀ hsq]
    have h1 : ((3 : ℝ)/2 * Real.sqrt ((v : ℚ) : ℝ))^2 < |((x : ℚ) : ℝ)|^2 := by
      rw [mul_pow, Real.sq_sqrt hvRpos.le, sq_abs]
      calc ((3 : ℝ)/2)^2 * ((v : ℚ) : ℝ) = (9 : ℝ)/4 * ((v : ℚ) : ℝ) := by norm_num
      _ < _ := hR
    exact lt_of_pow_lt_pow_left₀ 2 (abs_nonneg _) h1
  · intro h
    rw [lt_div_iff₀ hsq] at h
    have h1 : ((3 : ℝ)/2 * Real.sqrt ((v : ℚ) : ℝ))^2 < |((x : ℚ) : ℝ)|^2 :=
      pow_lt_pow_left₀ h (by positivity) (by norm_num)
    rw [mul_pow, Real.sq_sqrt hvRpos.le, sq_abs] at h1
    have h2 : (((9 : ℚ)/4 * v : ℚ) : ℝ) < ((x^2 : ℚ) : ℝ) := by
      push_cast
      calc (9 : ℝ)/4 * ((v : ℚ) : ℝ) = ((3 : ℝ)/2)^2 * ((v : ℚ) : ℝ) := by norm_num
      _ < _ := h1
    exact_mod_cast h2

theorem marca_iff_z (vals : List ℤ) (d : ℤ) :
    (pvarianza vals ≠ 0 ∧
      (9 : ℚ)/4 * pvarianza vals < ((d : ℚ) - media vals)^2) ↔
    (3 : ℝ)/2 < |zReal vals d| := by
  have hv0 : 0 ≤ pvarianza vals := pvarianza_nonneg vals
  by_cases hv : pvarianza vals = 0
  · constructor
    · rintro ⟨h, _⟩
      exact absurd hv h
    · intro h
      exfalso
      unfold zReal at h
      rw [hv] at h
      rw [show (((0 : ℚ) : ℝ)) = (0 : ℝ) by norm_num, Real.sqrt_zero, div_zero,
        abs_zero] at h
      norm_num at h
  · have hvpos : 0 < pvarianza vals := lt_of_le_of_ne hv0 (Ne.symm hv)
    have habs : |zReal vals d|
        = |((((d : ℚ) - media vals : ℚ)) : ℝ)| / Real.sqrt ((pvarianza vals : ℚ) : ℝ) := by
      unfold zReal
      rw [abs_div, abs_of_pos (Real.sqrt_pos.mpr (by exact_mod_cast hvpos))]
    rw [habs]
    constructor
    · rintro ⟨_, hlt⟩
      exact (cuadrado_iff_real _ _ hvpos).mp hlt
    · intro h
      exact ⟨hv, (cuadrado_iff_real _ _ hvpos).mpr h⟩

/-- A matrix whose finite pair distances form the sample [1, 1, 1, 1, 10]. -/
def ejemploD : MatrizD :=
  ⟨["A", "B", "C", "D"], fun u v =>
    if u = "A" ∧ v = "B" then ((1 : ℤ) : Coste)
    else if u = "A" ∧ v = "C" then ((1 : ℤ) : Coste)
    else if u = "A" ∧ v = "D" then ((1 : ℤ) : Coste)
    else if u = "B" ∧ v = "C" then ((1 : ℤ) : Coste)
    else if u = "B" ∧ v = "D" then ((10 : ℤ) : Coste)
    else ⊤⟩

/-- C5: the anomaly detector flags exactly the finite-distance pairs whose
absolute z-score (distance minus population mean, over the population
standard deviation, with `z = 0` on zero deviation) strictly exceeds `1.5`,
reports nothing with fewer than two finite pairs, and on the distance sample
[1, 1, 1, 1, 10] flags exactly the pair at distance 10. -/
theorem C5_pares_inusuales_z :
    (∀ (D : MatrizD) (t : String × String × ℤ),
      t ∈ inusuales D ↔
        2 ≤ (pares D).length ∧ t ∈ pares D ∧
        (3 : ℝ)/2 < |zReal (valores D) t.2.2|) ∧
    inusuales ejemploD = [("B", "D", 10)] := by
  constructor
  · intro D t
    unfold inusuales
    by_cases hlen : 2 ≤ (pares D).length
    · rw [if_pos hlen, List.mem_filter]
      constructor
      · rintro ⟨hmem, hdec⟩
        rw [decide_eq_true_eq] at hdec
        exact ⟨hlen, hmem, (marca_iff_z _ _).mp hdec⟩
      · rintro ⟨_, hmem, hz⟩
        refine ⟨hmem, ?_⟩
        rw [decide_eq_true_eq]
        exact (marca_iff_z _ _).mpr hz
    · rw [if_neg hlen]
      constructor
      · intro h
        cases h
      · rintro ⟨h, _⟩
        exact absurd h hlen
  · have hpares : pares ejemploD
        = [("A", "B", 1), ("A", "C", 1), ("A", "D", 1), ("B", "C", 1), ("B", "D", 10)] := rfl
    have hvals : valores ejemploD = [1, 1, 1, 1, 10] := rfl
    have hmedia : media [1, 1, 1, 1, 10] = 14/5 := by
      unfold media
      simp only [List.map_cons, List.map_nil, List.sum_cons, List.sum_nil, List.length_cons,
        List.length_nil]
      norm_num
    have hpvar : pvarianza [1, 1, 1, 1, 10] = 324/25 := by
      unfold pvarianza
      rw [hmedia]
      simp only [List.map_cons, List.map_nil, List.sum_cons, List.sum_nil, List.length_cons,
        List.length_nil]
      norm_num
    unfold inusuales
    rw [hvals, hmedia, hpvar, hpares]
    rw [if_pos (by norm_num)]
    have e1 : (decide (((324 : ℚ)/25 ≠ 0) ∧
        (9 : ℚ)/4 * (324/25) < (((1 : ℤ) : ℚ) - 14/5)^2)) = false := by
      rw [decide_eq_false_iff_not]
      intro hc
      have h2 := hc.2
      norm_num at h2
    have e2 : (decide (((324 : ℚ)/25 ≠ 0) ∧
        (9 : ℚ)/4 * (324/25) < (((10 : ℤ) : ℚ) - 14/5)^2)) = true := by
      rw [decide_eq_true_eq]
      norm_num
    rw [List.filter_cons, List.filter_cons, List.filter_cons, List.filter_cons,
      List.filter_cons, List.filter_nil]
    simp only [e1, e2, Bool.false_eq_true, if_false, if_true]

-- ## Non-finite weights in `construir_grafo_base` (C7)

/-- Last-write-wins weight lookup for float-valued weights (`⊤` models
Python `float("inf")`). -/
def pesoEnF : List (String × String × Coste) → String → String → Option Coste
  | [], _, _ => none
  | e :: l, u, v =>
    match pesoEnF l u v with
    | some w => some w
    | none => if e.1 = u ∧ e.2.1 = v then some e.2.2 else none

/-- `add_edge` on the edge dict, with float weights. -/
def addEdgeF (edges : List (String × String × Coste)) (u v : String) (w : Coste) :
    List (String × String × Coste) :=
  edges.filter (fun e => !(e.1 == u && e.2.1 == v)) ++ [(u, v, w)]

/-- `construir_grafo_base` over Python-float weights (edge dict only; node
bookkeeping is irrelevant here).  `float(w)` accepts non-finite values such
as `float("inf")`, and `add_edge` stores them, so the function is total: it
performs no finiteness check and never fails on a non-finite weight. -/
def construir_grafo_base_flotante (rutas : List (String × String × Coste)) :
    List (String × String × Coste) :=
  rutas.foldl (fun es r => addEdgeF (addEdgeF es r.1 r.2.1 r.2.2) r.2.1 r.1 r.2.2) []

/-- C7 counterexample: on the route `("a", "b", inf)` the builder does not
fail — it returns a graph that contains that edge, with the infinite
weight. -/
theorem C7_contraejemplo_peso_infinito :
    pesoEnF (construir_grafo_base_flotante [("a", "b", ⊤)]) "a" "b" = some ⊤ := by
  decide

/-- C7 amended: the Graph Builder performs no finiteness check — an input
triple with a non-finite weight is accepted, and the returned graph contains
that edge in both directions with that non-finite weight. -/
theorem C7_peso_infinito_aceptado (u v : String) :
    pesoEnF (construir_grafo_base_flotante [(u, v, ⊤)]) u v = some ⊤ ∧
    pesoEnF (construir_grafo_base_flotante [(u, v, ⊤)]) v u = some ⊤ := by
  have hbase : construir_grafo_base_flotante [(u, v, ⊤)]
      = addEdgeF (addEdgeF [] u v ⊤) v u ⊤ := rfl
  by_cases huv : u = v
  · subst huv
    constructor <;>
      · rw [hbase]
        show pesoEnF (List.filter _ [(u, u, ⊤)] ++ [(u, u, ⊤)]) u u = some ⊤
        rw [List.filter_cons_of_neg (by simp), List.filter_nil]
        show pesoEnF [(u, u, ⊤)] u u = some ⊤
        show (match pesoEnF [] u u with
          | some w => some w
          | none => if u = u ∧ u = u then some (⊤ : Coste) else none) = some ⊤
        rw [show pesoEnF [] u u = none from rfl]
        simp
  · have hkeep : List.filter (fun e => !(e.1 == v && e.2.1 == u)) [(u, v, (⊤ : Coste))]
        = [(u, v, (⊤ : Coste))] := by
      rw [List.filter_cons_of_pos (by simp [huv]), List.filter_nil]
    constructor
    · rw [hbase]
      show pesoEnF (List.filter _ [(u, v, ⊤)] ++ [(v, u, ⊤)]) u v = some ⊤
      rw [hkeep]
      show (match pesoEnF [(v, u, ⊤)] u v with
        | some w => some w
        | none => if u = u ∧ v = v then some (⊤ : Coste) else none) = some ⊤
      have hnone : pesoEnF [(v, u, ⊤)] u v = none := by
        show (match pesoEnF [] u v with
          | some w => some w
          | none => if v = u ∧ u = v then some (⊤ : Coste) else none) = none
        rw [show pesoEnF [] u v = none from rfl]
        have hne : ¬(v = u ∧ u = v) := fun hc => huv hc.2
        simp [hne]
      rw [hnone]
      simp
    · rw [hbase]
      show pesoEnF (List.filter _ [(u, v, ⊤)] ++ [(v, u, ⊤)]) v u = some ⊤
      rw [hkeep]
      show (match pesoEnF [(v, u, ⊤)] v u with
        | some w => some w
        | none => if u = v ∧ v = u then some (⊤ : Coste) else none) = some ⊤
      have hsome : pesoEnF [(v, u, ⊤)] v u = some ⊤ := by
        show (match pesoEnF [] v u with
          | some w => some w
          | none => if v = v ∧ u = u then some (⊤ : Coste) else none) = some ⊤
        rw [show pesoEnF [] v u = none from rfl]
        simp
      rw [hsome]
